import Mathlib

/-!
Shallow embedding of the workshop blockchain server (`src/server.js`).

The mutable `workshopState` of the source becomes an explicit `WorkshopState`
record threaded through pure transition functions; the socket.io event
handlers (`join-workshop`, `send-transaction`, `mine-block`, `disconnect`)
and the timer callbacks (`triggerMining`, the 30-second turn timeout) become
functions `WorkshopState → WorkshopState × result`.  Wall-clock readings
(`Date.now()`) and random draws (`Math.random()`) are passed in as explicit
parameters.  JavaScript numbers (amounts, fees, balances) are modelled as
integers: the workshop's scenarios use integral token amounts, every
accounting identity proved below is a commutative-ring identity independent
of the numeric carrier, and integer arithmetic is kernel-executable, so
every concrete trace can be checked by `decide`.
-/

namespace BlockchainSim

/-- Model of the external crypto-js `SHA256` primitive (not part of this
repository): an injective deterministic string digest standing in for the
cryptographic hash.  Every claim below depends only on the digest being a
deterministic injective function of its input string, which holds for this
model and is the design assumption for the real SHA-256. -/
def SHA256 (s : String) : String := "sha256:" ++ s

/-- Fixed all-zero 64-character sentinel used by the source for the genesis
`previousHash`/`merkleRoot`, for the empty Merkle tree, and as fallback
`previousHash` on an empty chain. -/
def zeroHash : String :=
  "0000000000000000000000000000000000000000000000000000000000000000"

/-- String rendering of a number, modelling JavaScript number interpolation
inside the template literals that feed the hash functions. -/
def numStr (q : Int) : String := toString q

/-- A pending or mined transaction (`transaction` object of `send-transaction`). -/
structure Transaction where
  id : Int
  «from» : String
  «to» : String
  amount : Int
  fee : Int
  timestamp : Nat
  hash : String
deriving DecidableEq

/-- A participant record (`participant` object of `join-workshop`).  In the
source, `miningRewards`/`blocksMined` are `null` for non-miners; that is the
`none` case here. -/
structure Participant where
  id : Nat
  nickname : String
  role : String
  balance : Int
  miningRewards : Option Int
  blocksMined : Option Nat
  online : Bool
  joinedAt : Nat
deriving DecidableEq

/-- A block of the chain. -/
structure Block where
  number : Nat
  previousHash : String
  merkleRoot : String
  timestamp : Nat
  transactions : List Transaction
  miner : String
  hash : String
deriving DecidableEq

/-- The aggregate `workshopState.stats` record. -/
structure Stats where
  totalTransactions : Nat
  totalBlocks : Nat
  activeUsers : Nat
  activeMiners : Nat
deriving DecidableEq

/-- The whole mutable `workshopState`.  The JavaScript `Map` keyed by socket
id is an insertion-ordered association list, matching the iteration order of
`Array.from(participants.values())`. -/
structure WorkshopState where
  participants : List (Nat × Participant)
  mempool : List Transaction
  blockchain : List Block
  currentMiner : Option String
  nextMiningTime : Option Nat
  stats : Stats
deriving DecidableEq

/-- The genesis block pushed by `initializeBlockchain`; its `hash` field is
the hard-coded literal of the source, not a computed digest. -/
def genesisBlock (ts : Nat) : Block :=
  { number := 0
    previousHash := zeroHash
    merkleRoot := zeroHash
    timestamp := ts
    transactions := []
    miner := "Genesis"
    hash := "genesis_block_hash_0000000000000000000000000000000000000000000000" }

/-- The server state right after startup: empty registry/pool, the stats
zeroed, and `initializeBlockchain` having pushed the genesis block. -/
def initialState (ts : Nat) : WorkshopState :=
  { participants := []
    mempool := []
    blockchain := [genesisBlock ts]
    currentMiner := none
    nextMiningTime := none
    stats := ⟨0, 0, 0, 0⟩ }

/-- Source `generateTransactionHash`: digest of
`from:to:amount:fee:timestamp`. -/
def generateTransactionHash (tx : Transaction) : String :=
  SHA256 (tx.«from» ++ ":" ++ tx.«to» ++ ":" ++ numStr tx.amount ++ ":" ++
    numStr tx.fee ++ ":" ++ toString tx.timestamp)

/-- Source `generateBlockHash`: digest of
`previousHash:merkleRoot:timestamp:number` (the `hash` and `transactions`
fields do not enter the digest). -/
def generateBlockHash (b : Block) : String :=
  SHA256 (b.previousHash ++ ":" ++ b.merkleRoot ++ ":" ++ toString b.timestamp ++
    ":" ++ toString b.number)

/-- One pass of the `while` loop of `buildMerkleTree`: pair adjacent
elements; `const right = currentLevel[i + 1] || left` falls back to `left`
both when no right element exists (odd level) and when the right element is
the empty string (JavaScript falsiness of `""`). -/
def merklePass : List String → List String
  | [] => []
  | [l] => [SHA256 (l ++ l)]
  | l :: r :: rest => SHA256 (l ++ (if r = "" then l else r)) :: merklePass rest

/-- The `while (currentLevel.length > 1)` loop of `buildMerkleTree`.  The
fuel argument only bounds the iteration count so that the function is
structurally recursive; since each pass shrinks a level of length `≥ 2`,
fuel equal to the initial length is never exhausted. -/
def merkleLoop : Nat → List String → String
  | 0, level => level.headD zeroHash
  | fuel + 1, level =>
      if 1 < level.length then merkleLoop fuel (merklePass level)
      else level.headD zeroHash

/-- Source `buildMerkleTree`. -/
def buildMerkleTree (txHashes : List String) : String :=
  if txHashes.length = 0 then zeroHash
  else if txHashes.length = 1 then txHashes.headD zeroHash
  else merkleLoop txHashes.length txHashes

/-- Lookup in the participants map by socket id (`participants.get(socket.id)`). -/
def getParticipant (sid : Nat) : List (Nat × Participant) → Option Participant
  | [] => none
  | (k, p) :: rest => if k = sid then some p else getParticipant sid rest

/-- `participants.set(sid, p)`: replace the entry with this key, or append a
new one (JavaScript `Map` keeps the original insertion position on update). -/
def setParticipant (sid : Nat) (p : Participant) :
    List (Nat × Participant) → List (Nat × Participant)
  | [] => [(sid, p)]
  | (k, q) :: rest =>
      if k = sid then (sid, p) :: rest else (k, q) :: setParticipant sid p rest

/-- In-place mutation of the participant object stored under `sid`
(e.g. `sender.balance -= …`). -/
def updateById (sid : Nat) (f : Participant → Participant) :
    List (Nat × Participant) → List (Nat × Participant)
  | [] => []
  | (k, q) :: rest =>
      if k = sid then (k, f q) :: rest else (k, q) :: updateById sid f rest

/-- `Array.from(participants.values())`. -/
def values (l : List (Nat × Participant)) : List Participant := l.map Prod.snd

/-- `values().find(p => p.nickname === n)` — first participant, in insertion
order, carrying the nickname (used by the mining credit step). -/
def firstByNickname (n : String) (l : List (Nat × Participant)) : Option Participant :=
  (values l).find? (fun p => p.nickname == n)

/-- `values().find(p => p.nickname === n && p.online)` — first *online*
participant with the nickname (used by the join and submit validations). -/
def firstOnlineByNickname (n : String) (l : List (Nat × Participant)) : Option Participant :=
  (values l).find? (fun p => p.nickname == n && p.online)

/-- Source `getRandomMiner`, with the random draw
`Math.floor(Math.random() * miners.length)` modelled by the explicit index
`r % miners.length` (for any oracle value `r`; every index is realised). -/
def onlineMiners (s : WorkshopState) : List Participant :=
  (values s.participants).filter (fun p => p.role == "miner" && p.online)

/-- Selected miner for oracle value `r`: `none` exactly when no online miner
exists. -/
def getRandomMiner (r : Nat) (s : WorkshopState) : Option Participant :=
  (onlineMiners s)[r % (onlineMiners s).length]?

/-- Source `updateStats`: recompute the active user/miner counts. -/
def updateStats (s : WorkshopState) : WorkshopState :=
  { s with stats :=
      { s.stats with
        activeUsers := ((values s.participants).filter
          (fun p => p.role == "user" && p.online)).length
        activeMiners := ((values s.participants).filter
          (fun p => p.role == "miner" && p.online)).length } }

/-- JavaScript truthiness of the `currentMiner` field, as read by the
`if (workshopState.currentMiner) return;` guard: `null` AND the empty
string are falsy, every other nickname is truthy. -/
def truthyMiner : Option String → Bool
  | none => false
  | some n => n != ""

/-- Source `triggerMining`: no-op while an assignment is active — where
"active" is JavaScript truthiness of `currentMiner`, so an assignment to
the empty-string nickname does NOT block reassignment; no-op when no
online miner exists; otherwise record the selected nickname and a deadline
30000 ms ahead. -/
def triggerMining (r : Nat) (now : Nat) (s : WorkshopState) : WorkshopState :=
  if truthyMiner s.currentMiner then s
  else
    match getRandomMiner r s with
    | none => s
    | some m =>
        { s with currentMiner := some m.nickname, nextMiningTime := some (now + 30000) }

/-- Outcome of the `join-workshop` handler. -/
inductive JoinResult where
  | nicknameTaken
  | joined (p : Participant)
deriving DecidableEq

/-- The participant record a join creates: users start with balance 100,
miners with zeroed reward counters. -/
def newParticipant (sid : Nat) (nickname role : String) (now : Nat) : Participant :=
  { id := sid
    nickname := nickname
    role := role
    balance := if role == "user" then 100 else 0
    miningRewards := if role == "miner" then some 0 else none
    blocksMined := if role == "miner" then some 0 else none
    online := true
    joinedAt := now }

/-- Source `join-workshop` handler. -/
def joinWorkshop (sid : Nat) (nickname role : String) (now : Nat)
    (s : WorkshopState) : WorkshopState × JoinResult :=
  match firstOnlineByNickname nickname s.participants with
  | some _ => (s, .nicknameTaken)
  | none =>
      let p : Participant := newParticipant sid nickname role now
      (updateStats { s with participants := setParticipant sid p s.participants },
       .joined p)

/-- Outcome of the `send-transaction` handler.  The error cases are the
`transaction-error` unicasts, in source order of the checks. -/
inductive SubmitResult where
  | roleError
  | fundsError
  | recipientError
  | capacityError
  | accepted (tx : Transaction)
deriving DecidableEq

/-- Whether a submit outcome is one of the validation failures. -/
def SubmitResult.isError : SubmitResult → Bool
  | .accepted _ => false
  | _ => true

/-- Source `send-transaction` handler.  `idr` models the `Math.random()`
summand of the transaction id; `now` models `Date.now()`; `r` is the random
oracle forwarded to the conditional `triggerMining` call. -/
def sendTransaction (sid : Nat) («to» : String) (amount fee : Int) (idr : Int)
    (now : Nat) (r : Nat) (s : WorkshopState) : WorkshopState × SubmitResult :=
  match getParticipant sid s.participants with
  | none => (s, .roleError)
  | some sender =>
      if sender.role ≠ "user" then (s, .roleError)
      else if sender.balance < amount + fee then (s, .fundsError)
      else
        match firstOnlineByNickname «to» s.participants with
        | none => (s, .recipientError)
        | some recipient =>
            let tx0 : Transaction :=
              { id := (now : Int) + idr
                «from» := sender.nickname
                «to» := recipient.nickname
                amount := amount
                fee := fee
                timestamp := now
                hash := "" }
            let tx : Transaction := { tx0 with hash := generateTransactionHash tx0 }
            if 5 ≤ s.mempool.length then (s, .capacityError)
            else
              let s1 : WorkshopState :=
                { s with
                  mempool := s.mempool ++ [tx]
                  stats := { s.stats with
                    totalTransactions := s.stats.totalTransactions + 1 }
                  participants := updateById sid
                    (fun p => { p with balance := p.balance - (tx.amount + tx.fee) })
                    s.participants }
              let s2 : WorkshopState :=
                if 3 ≤ s1.mempool.length then triggerMining r now s1 else s1
              (s2, .accepted tx)

/-- Outcome of the `mine-block` handler. -/
inductive MineResult where
  | roleError
  | turnError
  | emptyPoolError
  | mined (b : Block)
deriving DecidableEq

/-- The `transactionsToMine.forEach` credit loop: each transaction credits
the first participant (insertion order, online or not) carrying its `to`
nickname, if any. -/
def creditFirst (nick : String) (amt : Int) :
    List (Nat × Participant) → List (Nat × Participant)
  | [] => []
  | (k, p) :: rest =>
      if p.nickname == nick then (k, { p with balance := p.balance + amt }) :: rest
      else (k, p) :: creditFirst nick amt rest

/-- Fold of `creditFirst` over the included transactions, in pool order. -/
def creditRecipients (txs : List Transaction) (l : List (Nat × Participant)) :
    List (Nat × Participant) :=
  txs.foldl (fun acc tx => creditFirst tx.«to» tx.amount acc) l

/-- `transactionsToMine.reduce((sum, tx) => sum + tx.fee, 0)`. -/
def totalFees (txs : List Transaction) : Int :=
  txs.foldl (fun acc tx => acc + tx.fee) 0

/-- Source `mine-block` handler. -/
def mineBlock (sid : Nat) (now : Nat) (s : WorkshopState) :
    WorkshopState × MineResult :=
  match getParticipant sid s.participants with
  | none => (s, .roleError)
  | some miner =>
      if miner.role ≠ "miner" then (s, .roleError)
      else if s.currentMiner ≠ some miner.nickname then (s, .turnError)
      else if s.mempool.length = 0 then (s, .emptyPoolError)
      else
        let transactionsToMine := s.mempool.take 5
        let txHashes := transactionsToMine.map Transaction.hash
        let merkleRoot := buildMerkleTree txHashes
        let previousHash :=
          match s.blockchain.getLast? with
          | some b => b.hash
          | none => zeroHash
        let b0 : Block :=
          { number := s.blockchain.length
            previousHash := previousHash
            merkleRoot := merkleRoot
            timestamp := now
            transactions := transactionsToMine
            miner := miner.nickname
            hash := "" }
        let newBlock : Block := { b0 with hash := generateBlockHash b0 }
        let s1 : WorkshopState :=
          { s with
            blockchain := s.blockchain ++ [newBlock]
            stats := { s.stats with totalBlocks := s.stats.totalBlocks + 1 }
            mempool := s.mempool.drop 5 }
        let s2 : WorkshopState :=
          { s1 with participants := creditRecipients transactionsToMine s1.participants }
        let reward : Participant → Participant := fun p =>
          { p with
            miningRewards := some (p.miningRewards.getD 0 + totalFees transactionsToMine)
            blocksMined := some (p.blocksMined.getD 0 + 1) }
        let s3 : WorkshopState :=
          { s2 with participants := updateById sid reward s2.participants }
        ({ s3 with currentMiner := none }, .mined newBlock)

/-- Source `disconnect` handler: flip the participant offline (never delete). -/
def disconnect (sid : Nat) (s : WorkshopState) : WorkshopState :=
  match getParticipant sid s.participants with
  | none => s
  | some _ =>
      let goOffline : Participant → Participant := fun p => { p with online := false }
      updateStats { s with participants := updateById sid goOffline s.participants }

/-- The 30-second turn-timeout callback of `triggerMining`: if the recorded
assignee is still the current one, clear the assignment and, when the pool
is non-empty, immediately re-trigger. -/
def miningTimeout (nick : String) (r : Nat) (now : Nat) (s : WorkshopState) :
    WorkshopState :=
  if s.currentMiner = some nick then
    let s1 : WorkshopState := { s with currentMiner := none }
    if s1.mempool.length ≠ 0 then triggerMining r now s1 else s1
  else s

/-- All inbound events and timer firings that mutate the ledger.  `trigger`
covers the 45-second periodic sweep and the 5-second post-commit re-trigger
(both invoke `triggerMining`); `timeout` is the 30-second turn expiry. -/
inductive Event where
  | join (sid : Nat) (nickname role : String) (now : Nat)
  | submit (sid : Nat) («to» : String) (amount fee idr : Int) (now r : Nat)
  | mine (sid : Nat) (now : Nat)
  | disconnect (sid : Nat)
  | trigger (r : Nat) (now : Nat)
  | timeout (nick : String) (r : Nat) (now : Nat)

/-- One atomic processing step of the single-threaded event loop. -/
def step (e : Event) (s : WorkshopState) : WorkshopState :=
  match e with
  | .join sid n role now => (joinWorkshop sid n role now s).1
  | .submit sid t a f idr now r => (sendTransaction sid t a f idr now r s).1
  | .mine sid now => (mineBlock sid now s).1
  | .disconnect sid => disconnect sid s
  | .trigger r now => triggerMining r now s
  | .timeout nick r now => miningTimeout nick r now s

/-- States reachable from server startup by any sequence of events. -/
inductive Reachable : WorkshopState → Prop
  | init (ts : Nat) : Reachable (initialState ts)
  | step (e : Event) {s : WorkshopState} : Reachable s → Reachable (step e s)

/-! ### The Merkle computation described by the spec

The spec's words for `merkleRoot` ("repeatedly pair adjacent elements
left-to-right, duplicating the final unpaired element when the level has odd
length, hashing each pair's concatenation") differ from the source in one
corner: the source's `currentLevel[i + 1] || left` also falls back to `left`
when the right element is the empty string.  The following definitions
follow the spec's words literally, for comparison with `buildMerkleTree`. -/

/-- One pairing pass as the spec words it: the final unpaired element is
duplicated, every complete pair is hashed as `left ++ right`. -/
def specPass : List String → List String
  | [] => []
  | [l] => [SHA256 (l ++ l)]
  | l :: r :: rest => SHA256 (l ++ r) :: specPass rest

/-- Iterated spec pairing pass, same fuel discipline as `merkleLoop`. -/
def specLoop : Nat → List String → String
  | 0, level => level.headD zeroHash
  | fuel + 1, level =>
      if 1 < level.length then specLoop fuel (specPass level)
      else level.headD zeroHash

/-- Modelled from the spec: the `merkleRoot` function as §4.1 describes it
(sentinel for empty input, identity on singletons, literal left-to-right
pairing otherwise). -/
def merkleRootSpec (hashes : List String) : String :=
  if hashes.length = 0 then zeroHash
  else if hashes.length = 1 then hashes.headD zeroHash
  else specLoop hashes.length hashes

/-! ### Registry views and token sums -/

/-- Balance of the first participant (insertion order) with nickname `n`. -/
def balanceOfNick (n : String) (l : List (Nat × Participant)) : Option Int :=
  (firstByNickname n l).map (fun p => p.balance)

/-- Everything of a participant except its balance. -/
def minerView (p : Participant) :
    Nat × String × String × Option Int × Option Nat × Bool × Nat :=
  (p.id, p.nickname, p.role, p.miningRewards, p.blocksMined, p.online, p.joinedAt)

/-- Total amount of the transactions of `txs` addressed to nickname `n`. -/
def sumAmountsTo (n : String) (txs : List Transaction) : Int :=
  ((txs.filter (fun tx => tx.«to» == n)).map (fun tx => tx.amount)).sum

/-- Sum of all stored balances. -/
def sumBal (l : List (Nat × Participant)) : Int :=
  ((values l).map (fun p => p.balance)).sum

/-- Sum of all stored mining rewards (`null` counting as 0). -/
def sumRew (l : List (Nat × Participant)) : Int :=
  ((values l).map (fun p => p.miningRewards.getD 0)).sum

/-- Tokens escrowed in a transaction list: amount plus fee of each entry. -/
def poolEscrow (txs : List Transaction) : Int :=
  (txs.map (fun tx => tx.amount + tx.fee)).sum

/-- The conserved quantity of claim C10: all balances, plus all mining
rewards, plus everything escrowed in the pending pool. -/
def totalTokens (s : WorkshopState) : Int :=
  sumBal s.participants + sumRew s.participants + poolEscrow s.mempool

/-! ### Chain well-formedness predicates and handler building blocks -/

/-- Adjacent-pair hash linking: every block's `previousHash` equals its
predecessor's `hash`. -/
def chainLinkedB : List Block → Bool
  | [] => true
  | [_] => true
  | a :: b :: rest => (b.previousHash == a.hash) && chainLinkedB (b :: rest)

/-- All non-head (that is, non-genesis) blocks carry
`hash = generateBlockHash` of themselves. -/
def hashesOkTail (l : List Block) : Bool :=
  l.tail.all (fun b => b.hash == generateBlockHash b)

/-- The transaction object built by a successful submission. -/
def submittedTx (sender recipient : Participant) (amount fee idr : Int)
    (now : Nat) : Transaction :=
  let tx0 : Transaction :=
    { id := (now : Int) + idr
      «from» := sender.nickname
      «to» := recipient.nickname
      amount := amount
      fee := fee
      timestamp := now
      hash := "" }
  { tx0 with hash := generateTransactionHash tx0 }

/-- The block built by a successful `mine-block` call on state `s`. -/
def minedBlockOf (s : WorkshopState) (minerNick : String) (now : Nat) : Block :=
  let txs := s.mempool.take 5
  let b0 : Block :=
    { number := s.blockchain.length
      previousHash :=
        match s.blockchain.getLast? with
        | some b => b.hash
        | none => zeroHash
      merkleRoot := buildMerkleTree (txs.map Transaction.hash)
      timestamp := now
      transactions := txs
      miner := minerNick
      hash := "" }
  { b0 with hash := generateBlockHash b0 }

/-- The miner bookkeeping mutation of `mine-block` (fees into
`miningRewards`, `blocksMined` incremented). -/
def rewardUpdate (txs : List Transaction) (p : Participant) : Participant :=
  { p with
    miningRewards := some (p.miningRewards.getD 0 + totalFees txs)
    blocksMined := some (p.blocksMined.getD 0 + 1) }

/-- The sender debit mutation of `send-transaction`. -/
def debitUpdate (amount fee : Int) (p : Participant) : Participant :=
  { p with balance := p.balance - (amount + fee) }

/-! ### Concrete scenario states -/

/-- Nickname shadowing scenario: Bob joins (socket 1), disconnects, a second
Bob joins (socket 2), Alice (socket 3) and miner Max (socket 4) join. -/
def shadowBase : WorkshopState :=
  step (.join 4 "max" "miner" 3) (step (.join 3 "alice" "user" 2)
    (step (.join 2 "bob" "user" 1) (step (.disconnect 1)
      (step (.join 1 "bob" "user" 0) (initialState 0)))))

/-- Alice pays 10 (fee 1) to nickname "bob"; the online recipient resolved
at submission time is the participant on socket 2. -/
def shadowSubmitted : WorkshopState := step (.submit 3 "bob" 10 1 0 5 0) shadowBase

/-- Max gets the mining assignment. -/
def shadowAssigned : WorkshopState := step (.trigger 0 6) shadowSubmitted

/-- Max mines the pending transaction. -/
def shadowMined : WorkshopState := step (.mine 4 9) shadowAssigned

/-- Re-join scenario: Alice (1), Bob (2) and miner Max (3) join. -/
def rejoinBase : WorkshopState :=
  step (.join 3 "max" "miner" 2) (step (.join 2 "bob" "user" 1)
    (step (.join 1 "alice" "user" 0) (initialState 0)))

/-- Alice pays 10 (fee 1) to Bob. -/
def rejoinSubmitted : WorkshopState := step (.submit 1 "bob" 10 1 0 5 0) rejoinBase

/-- Bob's socket re-joins under a fresh nickname while his transaction is
still pending, replacing his registry entry. -/
def rejoinReplaced : WorkshopState := step (.join 2 "charlie" "user" 6) rejoinSubmitted

/-- Max gets the mining assignment. -/
def rejoinAssigned : WorkshopState := step (.trigger 0 7) rejoinReplaced

/-- Max mines the pending transaction whose recipient entry is gone. -/
def rejoinMined : WorkshopState := step (.mine 3 9) rejoinAssigned

/-- Offline-sender scenario: Ann joins (1), Ben joins (2), Ann disconnects. -/
def offlineSenderState : WorkshopState :=
  step (.disconnect 1) (step (.join 2 "ben" "user" 1)
    (step (.join 1 "ann" "user" 0) (initialState 0)))

/-- Self-send scenario: only Ann is registered, and she pays her own
nickname. -/
def selfSendBase : WorkshopState :=
  step (.join 1 "ann" "user" 0) (initialState 0)

/-- Two independent users for the plain submission scenario of the spec. -/
def twoUsersState : WorkshopState :=
  step (.join 2 "ben" "user" 1) (step (.join 1 "ann" "user" 0) (initialState 0))

/-- Full-pool scenario: Ann submits five 1-token payments to Ben (no miner
is online, so no assignment interferes); the pool then holds 5 entries. -/
def fullPoolState : WorkshopState :=
  step (.submit 1 "ben" 1 0 4 9 0) (step (.submit 1 "ben" 1 0 3 8 0)
    (step (.submit 1 "ben" 1 0 2 7 0) (step (.submit 1 "ben" 1 0 1 6 0)
      (step (.submit 1 "ben" 1 0 0 5 0) twoUsersState))))

/-- After Max's block empties the pool, a stale deferred trigger fires and
assigns Max with nothing to mine. -/
def emptyPoolAssigned : WorkshopState := step (.trigger 0 10) shadowMined

/-- A miner whose nickname is the empty string joins (the join handler
validates nothing beyond online-uniqueness of the nickname). -/
def emptyNickBase : WorkshopState := step (.join 1 "" "miner" 0) (initialState 0)

/-- The trigger selects the empty-nickname miner, so the active assignment
becomes `some ""` with deadline 5 + 30000. -/
def emptyNickAssigned : WorkshopState := step (.trigger 0 5) emptyNickBase

/-! ### Merkle lemmas -/

theorem SHA256_ne_empty (s : String) : SHA256 s ≠ "" := by
  intro h
  have h2 := congrArg String.length h
  simp [SHA256, String.length_append] at h2
  exact absurd h2.1 (by decide)

theorem merklePass_ne_empty : ∀ l : List String, ∀ x ∈ merklePass l, x ≠ ""
  | [] => by simp [merklePass]
  | [a] => by
      simp only [merklePass, List.mem_singleton]
      intro x hx
      subst hx
      exact SHA256_ne_empty _
  | a :: b :: rest => by
      intro x hx
      simp only [merklePass, List.mem_cons] at hx
      rcases hx with h | h
      · subst h; exact SHA256_ne_empty _
      · exact merklePass_ne_empty rest x h

theorem merklePass_eq_specPass : ∀ l : List String, "" ∉ l → merklePass l = specPass l
  | [] => by intro _; rfl
  | [a] => by intro _; rfl
  | a :: b :: rest => by
      intro h
      simp only [List.mem_cons, not_or] at h
      obtain ⟨_, hb, hrest⟩ := h
      simp only [merklePass, specPass]
      rw [if_neg (fun hb2 => hb hb2.symm), merklePass_eq_specPass rest hrest]

theorem merkleLoop_eq_specLoop :
    ∀ (fuel : Nat) (l : List String), "" ∉ l → merkleLoop fuel l = specLoop fuel l
  | 0, l => by intro _; rfl
  | fuel + 1, l => by
      intro h
      simp only [merkleLoop, specLoop]
      by_cases h1 : 1 < l.length
      · rw [if_pos h1, if_pos h1, ← merklePass_eq_specPass l h]
        exact merkleLoop_eq_specLoop fuel (merklePass l)
          (fun hx => merklePass_ne_empty l "" hx rfl)
      · rw [if_neg h1, if_neg h1]

theorem buildMerkleTree_eq_spec (l : List String) (h : "" ∉ l) :
    buildMerkleTree l = merkleRootSpec l := by
  unfold buildMerkleTree merkleRootSpec
  by_cases h0 : l.length = 0
  · rw [if_pos h0, if_pos h0]
  · rw [if_neg h0, if_neg h0]
    by_cases h1 : l.length = 1
    · rw [if_pos h1, if_pos h1]
    · rw [if_neg h1, if_neg h1]
      exact merkleLoop_eq_specLoop l.length l h

/-! ### Registry lemmas -/

theorem getParticipant_updateById (sid : Nat) (f : Participant → Participant) :
    ∀ l : List (Nat × Participant),
      getParticipant sid (updateById sid f l) = (getParticipant sid l).map f
  | [] => rfl
  | (k, q) :: rest => by
      by_cases h : k = sid
      · simp [updateById, getParticipant, h]
      · simp [updateById, getParticipant, h, getParticipant_updateById sid f rest]

theorem updateById_not_found (sid : Nat) (f : Participant → Participant) :
    ∀ l : List (Nat × Participant),
      getParticipant sid l = none → updateById sid f l = l
  | [] => by intro _; rfl
  | (k, q) :: rest => by
      intro h
      by_cases hk : k = sid
      · simp [getParticipant, hk] at h
      · simp only [getParticipant, if_neg hk] at h
        simp [updateById, hk, updateById_not_found sid f rest h]

theorem sumBal_updateById (sid : Nat) (f : Participant → Participant) :
    ∀ (l : List (Nat × Participant)) (p : Participant),
      getParticipant sid l = some p →
      sumBal (updateById sid f l) = sumBal l - p.balance + (f p).balance
  | [], p => by intro h; simp [getParticipant] at h
  | (k, q) :: rest, p => by
      intro h
      by_cases hk : k = sid
      · simp only [getParticipant, if_pos hk, Option.some.injEq] at h
        subst h
        simp [updateById, hk, sumBal, values]
        ring
      · simp only [getParticipant, if_neg hk] at h
        have ih := sumBal_updateById sid f rest p h
        simp only [updateById, if_neg hk]
        simp [sumBal, values] at ih ⊢
        rw [ih]
        ring

theorem sumRew_updateById (sid : Nat) (f : Participant → Participant) :
    ∀ (l : List (Nat × Participant)) (p : Participant),
      getParticipant sid l = some p →
      sumRew (updateById sid f l) =
        sumRew l - p.miningRewards.getD 0 + (f p).miningRewards.getD 0
  | [], p => by intro h; simp [getParticipant] at h
  | (k, q) :: rest, p => by
      intro h
      by_cases hk : k = sid
      · simp only [getParticipant, if_pos hk, Option.some.injEq] at h
        subst h
        simp [updateById, hk, sumRew, values]
        ring
      · simp only [getParticipant, if_neg hk] at h
        have ih := sumRew_updateById sid f rest p h
        simp only [updateById, if_neg hk]
        simp [sumRew, values] at ih ⊢
        rw [ih]
        ring

theorem balanceOfNick_updateById (n : String) (sid : Nat)
    (f : Participant → Participant)
    (hnick : ∀ p, (f p).nickname = p.nickname)
    (hbal : ∀ p, (f p).balance = p.balance) :
    ∀ l : List (Nat × Participant),
      balanceOfNick n (updateById sid f l) = balanceOfNick n l
  | [] => rfl
  | (k, q) :: rest => by
      by_cases hk : k = sid
      · by_cases hq : q.nickname == n
        · simp [updateById, hk, balanceOfNick, firstByNickname, values,
            List.find?, hnick, hq, hbal]
        · have ih := balanceOfNick_updateById n sid f hnick hbal rest
          simp only [balanceOfNick, firstByNickname, values] at ih
          simp [updateById, hk, balanceOfNick, firstByNickname, values,
            List.find?, hnick, hq, ih]
      · by_cases hq : q.nickname == n
        · simp [updateById, hk, balanceOfNick, firstByNickname, values, List.find?, hq]
        · have := balanceOfNick_updateById n sid f hnick hbal rest
          simp [updateById, hk, balanceOfNick, firstByNickname, values,
            List.find?, hq] at *
          exact this

/-! Cons-shape rewrite lemmas keep the inductions below in one normal form. -/

theorem firstByNickname_cons (n : String) (k : Nat) (q : Participant)
    (rest : List (Nat × Participant)) :
    firstByNickname n ((k, q) :: rest) =
      if q.nickname == n then some q else firstByNickname n rest := by
  by_cases hq : q.nickname == n
  · simp [firstByNickname, values, List.find?, hq]
  · simp [firstByNickname, values, List.find?, hq]

theorem balanceOfNick_cons (n : String) (k : Nat) (q : Participant)
    (rest : List (Nat × Participant)) :
    balanceOfNick n ((k, q) :: rest) =
      if q.nickname == n then some q.balance else balanceOfNick n rest := by
  by_cases hq : q.nickname == n
  · simp [balanceOfNick, firstByNickname_cons, hq]
  · simp [balanceOfNick, firstByNickname_cons, hq]

theorem sumBal_cons (k : Nat) (q : Participant) (rest : List (Nat × Participant)) :
    sumBal ((k, q) :: rest) = q.balance + sumBal rest := by
  simp [sumBal, values]

theorem sumRew_cons (k : Nat) (q : Participant) (rest : List (Nat × Participant)) :
    sumRew ((k, q) :: rest) = q.miningRewards.getD 0 + sumRew rest := by
  simp [sumRew, values]

theorem creditFirst_cons (n : String) (a : Int) (k : Nat) (q : Participant)
    (rest : List (Nat × Participant)) :
    creditFirst n a ((k, q) :: rest) =
      if q.nickname == n then (k, { q with balance := q.balance + a }) :: rest
      else (k, q) :: creditFirst n a rest := by
  by_cases hq : q.nickname == n
  · simp [creditFirst, hq]
  · simp [creditFirst, hq]

theorem balanceOfNick_creditFirst_same (n : String) (a : Int) :
    ∀ l, balanceOfNick n (creditFirst n a l) = (balanceOfNick n l).map (· + a)
  | [] => rfl
  | (k, q) :: rest => by
      rw [creditFirst_cons]
      by_cases hq : q.nickname == n
      · rw [if_pos hq, balanceOfNick_cons, balanceOfNick_cons, if_pos hq]
        simp [hq]
      · rw [if_neg hq, balanceOfNick_cons, balanceOfNick_cons, if_neg hq, if_neg hq]
        exact balanceOfNick_creditFirst_same n a rest

theorem firstByNickname_creditFirst_ne (n m : String) (a : Int) (hnm : n ≠ m) :
    ∀ l, firstByNickname n (creditFirst m a l) = firstByNickname n l
  | [] => rfl
  | (k, q) :: rest => by
      rw [creditFirst_cons]
      by_cases hq : q.nickname == m
      · have hqq : q.nickname = m := by simpa using hq
        have hq2 : (q.nickname == n) = false := by
          rw [hqq]
          exact beq_eq_false_iff_ne.mpr (Ne.symm hnm)
        rw [if_pos hq, firstByNickname_cons, firstByNickname_cons]
        simp [hq2]
      · rw [if_neg hq, firstByNickname_cons, firstByNickname_cons]
        by_cases hq2 : q.nickname == n
        · rw [if_pos hq2, if_pos hq2]
        · rw [if_neg hq2, if_neg hq2]
          exact firstByNickname_creditFirst_ne n m a hnm rest

theorem firstByNickname_creditFirst_isSome (n m : String) (a : Int)
    (l : List (Nat × Participant)) :
    (firstByNickname n (creditFirst m a l)).isSome = (firstByNickname n l).isSome := by
  by_cases hnm : n = m
  · subst hnm
    have h := balanceOfNick_creditFirst_same n a l
    simp only [balanceOfNick] at h
    have h2 := congrArg Option.isSome h
    simpa using h2
  · rw [firstByNickname_creditFirst_ne n m a hnm l]

theorem sumBal_creditFirst (n : String) (a : Int) :
    ∀ l, sumBal (creditFirst n a l) =
      sumBal l + (if (firstByNickname n l).isSome then a else 0)
  | [] => by simp [creditFirst, sumBal, values, firstByNickname]
  | (k, q) :: rest => by
      rw [creditFirst_cons]
      by_cases hq : q.nickname == n
      · rw [if_pos hq, sumBal_cons, sumBal_cons, firstByNickname_cons, if_pos hq]
        simp
        ring
      · rw [if_neg hq, sumBal_cons, sumBal_cons, firstByNickname_cons, if_neg hq,
          sumBal_creditFirst n a rest]
        ring

theorem sumRew_creditFirst (n : String) (a : Int) :
    ∀ l, sumRew (creditFirst n a l) = sumRew l
  | [] => rfl
  | (k, q) :: rest => by
      rw [creditFirst_cons]
      by_cases hq : q.nickname == n
      · rw [if_pos hq, sumRew_cons, sumRew_cons]
      · rw [if_neg hq, sumRew_cons, sumRew_cons, sumRew_creditFirst n a rest]

theorem getParticipant_creditFirst_view (sid : Nat) (n : String) (a : Int) :
    ∀ l, (getParticipant sid (creditFirst n a l)).map minerView
        = (getParticipant sid l).map minerView
  | [] => rfl
  | (k, q) :: rest => by
      rw [creditFirst_cons]
      by_cases hq : q.nickname == n
      · by_cases hk : k = sid
        · simp [getParticipant, hk, minerView, hq]
        · simp [getParticipant, hk, hq]
      · by_cases hk : k = sid
        · simp [getParticipant, hk, hq]
        · simp [getParticipant, hk, hq,
            getParticipant_creditFirst_view sid n a rest]

theorem balanceOfNick_creditRecipients (n : String) :
    ∀ (txs : List Transaction) (l : List (Nat × Participant)),
      balanceOfNick n (creditRecipients txs l) =
        (balanceOfNick n l).map (· + sumAmountsTo n txs)
  | [], l => by
      simp only [creditRecipients, List.foldl_nil, sumAmountsTo, List.filter_nil,
        List.map_nil, List.sum_nil]
      cases balanceOfNick n l <;> simp
  | tx :: txs, l => by
      simp only [creditRecipients, List.foldl_cons]
      have ih := balanceOfNick_creditRecipients n txs (creditFirst tx.«to» tx.amount l)
      simp only [creditRecipients] at ih
      rw [ih]
      by_cases h : tx.«to» = n
      · subst h
        rw [balanceOfNick_creditFirst_same]
        have hfilter : sumAmountsTo tx.«to» (tx :: txs) =
            tx.amount + sumAmountsTo tx.«to» txs := by
          simp [sumAmountsTo, List.filter_cons]
        rw [hfilter]
        cases balanceOfNick tx.«to» l with
        | none => simp
        | some b =>
            simp
            ring
      · have hne : balanceOfNick n (creditFirst tx.«to» tx.amount l) = balanceOfNick n l := by
          simp only [balanceOfNick]
          rw [firstByNickname_creditFirst_ne n tx.«to» tx.amount (fun hh => h hh.symm)]
        rw [hne]
        have hfilter : sumAmountsTo n (tx :: txs) = sumAmountsTo n txs := by
          have hb : (tx.«to» == n) = false := by simpa using h
          simp [sumAmountsTo, List.filter_cons, hb]
        rw [hfilter]

theorem sumRew_creditRecipients :
    ∀ (txs : List Transaction) (l : List (Nat × Participant)),
      sumRew (creditRecipients txs l) = sumRew l
  | [], l => rfl
  | tx :: txs, l => by
      simp only [creditRecipients, List.foldl_cons]
      have ih := sumRew_creditRecipients txs (creditFirst tx.«to» tx.amount l)
      simp only [creditRecipients] at ih
      rw [ih, sumRew_creditFirst]

theorem getParticipant_creditRecipients_view (sid : Nat) :
    ∀ (txs : List Transaction) (l : List (Nat × Participant)),
      (getParticipant sid (creditRecipients txs l)).map minerView
        = (getParticipant sid l).map minerView
  | [], l => rfl
  | tx :: txs, l => by
      simp only [creditRecipients, List.foldl_cons]
      have ih := getParticipant_creditRecipients_view sid txs (creditFirst tx.«to» tx.amount l)
      simp only [creditRecipients] at ih
      rw [ih, getParticipant_creditFirst_view]

theorem firstByNickname_creditRecipients_isSome (n : String) :
    ∀ (txs : List Transaction) (l : List (Nat × Participant)),
      (firstByNickname n (creditRecipients txs l)).isSome =
        (firstByNickname n l).isSome
  | [], l => rfl
  | tx :: txs, l => by
      simp only [creditRecipients, List.foldl_cons]
      have ih := firstByNickname_creditRecipients_isSome n txs (creditFirst tx.«to» tx.amount l)
      simp only [creditRecipients] at ih
      rw [ih, firstByNickname_creditFirst_isSome]

theorem sumBal_creditRecipients :
    ∀ (txs : List Transaction) (l : List (Nat × Participant)),
      (∀ tx ∈ txs, (firstByNickname tx.«to» l).isSome = true) →
      sumBal (creditRecipients txs l) =
        sumBal l + ((txs.map (fun tx => tx.amount)).sum)
  | [], l => by intro _; simp [creditRecipients]
  | tx :: txs, l => by
      intro h
      simp only [creditRecipients, List.foldl_cons]
      have hhd : (firstByNickname tx.«to» l).isSome = true := h tx (by simp)
      have htl : ∀ tx2 ∈ txs,
          (firstByNickname tx2.«to» (creditFirst tx.«to» tx.amount l)).isSome = true := by
        intro tx2 h2
        rw [firstByNickname_creditFirst_isSome]
        exact h tx2 (by simp [h2])
      have ih := sumBal_creditRecipients txs (creditFirst tx.«to» tx.amount l) htl
      simp only [creditRecipients] at ih
      rw [ih, sumBal_creditFirst, if_pos hhd]
      simp
      ring

theorem foldl_add_fee :
    ∀ (txs : List Transaction) (a : Int),
      txs.foldl (fun acc tx => acc + tx.fee) a = a + (txs.map (fun tx => tx.fee)).sum
  | [], a => by simp
  | tx :: txs, a => by
      simp only [List.foldl_cons, List.map_cons, List.sum_cons]
      rw [foldl_add_fee txs (a + tx.fee)]
      ring

theorem totalFees_eq (txs : List Transaction) :
    totalFees txs = (txs.map (fun tx => tx.fee)).sum := by
  simp [totalFees, foldl_add_fee]

theorem poolEscrow_eq (txs : List Transaction) :
    poolEscrow txs =
      (txs.map (fun tx => tx.amount)).sum + (txs.map (fun tx => tx.fee)).sum := by
  induction txs with
  | nil => simp [poolEscrow]
  | cons tx txs ih =>
      simp only [poolEscrow, List.map_cons, List.sum_cons] at ih ⊢
      rw [ih]
      ring

theorem poolEscrow_take_drop (n : Nat) (l : List Transaction) :
    poolEscrow l = poolEscrow (l.take n) + poolEscrow (l.drop n) := by
  nth_rewrite 1 [← List.take_append_drop n l]
  simp [poolEscrow, List.map_append, List.sum_append]

theorem length_filter_values_updateById (pred : Participant → Bool) (sid : Nat)
    (f : Participant → Participant) (hf : ∀ p, pred (f p) = pred p) :
    ∀ l, ((values (updateById sid f l)).filter pred).length
        = ((values l).filter pred).length
  | [] => rfl
  | (k, q) :: rest => by
      have ih := length_filter_values_updateById pred sid f hf rest
      simp only [values] at ih
      by_cases hk : k = sid
      · simp only [updateById, if_pos hk, values, List.map_cons, List.filter_cons, hf]
        cases hpq : pred q <;> simp [ih]
      · simp only [updateById, if_neg hk, values, List.map_cons, List.filter_cons]
        cases hpq : pred q <;> simp [ih]

/-! ### Handler characterizations -/

theorem updateStats_participants (s : WorkshopState) :
    (updateStats s).participants = s.participants := rfl

theorem updateStats_mempool (s : WorkshopState) :
    (updateStats s).mempool = s.mempool := rfl

theorem updateStats_blockchain (s : WorkshopState) :
    (updateStats s).blockchain = s.blockchain := rfl

theorem updateStats_currentMiner (s : WorkshopState) :
    (updateStats s).currentMiner = s.currentMiner := rfl

theorem triggerMining_active (r now : Nat) (s : WorkshopState)
    (h : truthyMiner s.currentMiner = true) : triggerMining r now s = s := by
  unfold triggerMining
  rw [if_pos h]

theorem triggerMining_noMiner (r now : Nat) (s : WorkshopState)
    (hf : truthyMiner s.currentMiner = false) (hm : onlineMiners s = []) :
    triggerMining r now s = s := by
  unfold triggerMining
  rw [if_neg (by simp [hf])]
  simp [getRandomMiner, hm]

theorem triggerMining_assigns (r now : Nat) (s : WorkshopState)
    (hf : truthyMiner s.currentMiner = false) (hm : onlineMiners s ≠ []) :
    ∃ m, (onlineMiners s)[r % (onlineMiners s).length]? = some m ∧
      m ∈ onlineMiners s ∧
      triggerMining r now s =
        { s with currentMiner := some m.nickname, nextMiningTime := some (now + 30000) } := by
  have hlen : 0 < (onlineMiners s).length := List.length_pos.mpr hm
  have hidx : r % (onlineMiners s).length < (onlineMiners s).length :=
    Nat.mod_lt _ hlen
  refine ⟨(onlineMiners s).get ⟨r % (onlineMiners s).length, hidx⟩,
    List.getElem?_eq_getElem hidx, List.getElem_mem hidx, ?_⟩
  unfold triggerMining
  rw [if_neg (by simp [hf])]
  simp [getRandomMiner, List.getElem?_eq_getElem hidx]

theorem triggerMining_participants (r now : Nat) (s : WorkshopState) :
    (triggerMining r now s).participants = s.participants := by
  unfold triggerMining
  by_cases h : truthyMiner s.currentMiner = true
  · rw [if_pos h]
  · rw [if_neg h]
    cases hm : getRandomMiner r s <;> rfl

theorem triggerMining_mempool (r now : Nat) (s : WorkshopState) :
    (triggerMining r now s).mempool = s.mempool := by
  unfold triggerMining
  by_cases h : truthyMiner s.currentMiner = true
  · rw [if_pos h]
  · rw [if_neg h]
    cases hm : getRandomMiner r s <;> rfl

theorem triggerMining_blockchain (r now : Nat) (s : WorkshopState) :
    (triggerMining r now s).blockchain = s.blockchain := by
  unfold triggerMining
  by_cases h : truthyMiner s.currentMiner = true
  · rw [if_pos h]
  · rw [if_neg h]
    cases hm : getRandomMiner r s <;> rfl

theorem triggerMining_stats (r now : Nat) (s : WorkshopState) :
    (triggerMining r now s).stats = s.stats := by
  unfold triggerMining
  by_cases h : truthyMiner s.currentMiner = true
  · rw [if_pos h]
  · rw [if_neg h]
    cases hm : getRandomMiner r s <;> rfl

theorem miningTimeout_participants (nick : String) (r now : Nat) (s : WorkshopState) :
    (miningTimeout nick r now s).participants = s.participants := by
  unfold miningTimeout
  by_cases h : s.currentMiner = some nick
  · rw [if_pos h]
    by_cases h2 : s.mempool.length ≠ 0 <;>
      simp [h2, triggerMining_participants]
  · rw [if_neg h]

theorem miningTimeout_mempool (nick : String) (r now : Nat) (s : WorkshopState) :
    (miningTimeout nick r now s).mempool = s.mempool := by
  unfold miningTimeout
  by_cases h : s.currentMiner = some nick
  · rw [if_pos h]
    by_cases h2 : s.mempool.length ≠ 0 <;>
      simp [h2, triggerMining_mempool]
  · rw [if_neg h]

theorem miningTimeout_blockchain (nick : String) (r now : Nat) (s : WorkshopState) :
    (miningTimeout nick r now s).blockchain = s.blockchain := by
  unfold miningTimeout
  by_cases h : s.currentMiner = some nick
  · rw [if_pos h]
    by_cases h2 : s.mempool.length ≠ 0 <;>
      simp [h2, triggerMining_blockchain]
  · rw [if_neg h]

theorem miningTimeout_stats (nick : String) (r now : Nat) (s : WorkshopState) :
    (miningTimeout nick r now s).stats = s.stats := by
  unfold miningTimeout
  by_cases h : s.currentMiner = some nick
  · rw [if_pos h]
    by_cases h2 : s.mempool.length ≠ 0 <;>
      simp [h2, triggerMining_stats]
  · rw [if_neg h]

theorem joinWorkshop_taken (sid : Nat) (n role : String) (now : Nat)
    (s : WorkshopState) (q : Participant)
    (h : firstOnlineByNickname n s.participants = some q) :
    joinWorkshop sid n role now s = (s, .nicknameTaken) := by
  simp [joinWorkshop, h]

theorem joinWorkshop_fresh (sid : Nat) (n role : String) (now : Nat)
    (s : WorkshopState)
    (h : firstOnlineByNickname n s.participants = none) :
    joinWorkshop sid n role now s =
      (updateStats { s with participants := setParticipant sid (newParticipant sid n role now) s.participants },
       .joined (newParticipant sid n role now)) := by
  simp [joinWorkshop, h]

theorem joinWorkshop_mempool (sid : Nat) (n role : String) (now : Nat)
    (s : WorkshopState) :
    ((joinWorkshop sid n role now s).1).mempool = s.mempool := by
  unfold joinWorkshop
  cases h : firstOnlineByNickname n s.participants <;> simp [updateStats]

theorem joinWorkshop_blockchain (sid : Nat) (n role : String) (now : Nat)
    (s : WorkshopState) :
    ((joinWorkshop sid n role now s).1).blockchain = s.blockchain := by
  unfold joinWorkshop
  cases h : firstOnlineByNickname n s.participants <;> simp [updateStats]

theorem joinWorkshop_currentMiner (sid : Nat) (n role : String) (now : Nat)
    (s : WorkshopState) :
    ((joinWorkshop sid n role now s).1).currentMiner = s.currentMiner := by
  unfold joinWorkshop
  cases h : firstOnlineByNickname n s.participants <;> simp [updateStats]

theorem disconnect_mempool (sid : Nat) (s : WorkshopState) :
    (disconnect sid s).mempool = s.mempool := by
  unfold disconnect
  cases h : getParticipant sid s.participants <;> simp [updateStats]

theorem disconnect_blockchain (sid : Nat) (s : WorkshopState) :
    (disconnect sid s).blockchain = s.blockchain := by
  unfold disconnect
  cases h : getParticipant sid s.participants <;> simp [updateStats]

theorem disconnect_currentMiner (sid : Nat) (s : WorkshopState) :
    (disconnect sid s).currentMiner = s.currentMiner := by
  unfold disconnect
  cases h : getParticipant sid s.participants <;> simp [updateStats]

theorem setParticipant_fresh (sid : Nat) (p : Participant) :
    ∀ l : List (Nat × Participant), sid ∉ l.map Prod.fst →
      setParticipant sid p l = l ++ [(sid, p)]
  | [] => by intro _; rfl
  | (k, q) :: rest => by
      intro h
      simp only [List.map_cons, List.mem_cons, not_or] at h
      obtain ⟨hk, hrest⟩ := h
      have hk2 : ¬ (k = sid) := fun hh => hk hh.symm
      simp only [setParticipant, List.cons_append]
      rw [if_neg hk2, setParticipant_fresh sid p rest hrest]

theorem sendTransaction_no_sender (sid : Nat) (t : String) (a f idr : Int)
    (now r : Nat) (s : WorkshopState)
    (h : getParticipant sid s.participants = none) :
    sendTransaction sid t a f idr now r s = (s, .roleError) := by
  simp [sendTransaction, h]

theorem sendTransaction_not_user (sid : Nat) (t : String) (a f idr : Int)
    (now r : Nat) (s : WorkshopState) (p : Participant)
    (hp : getParticipant sid s.participants = some p)
    (h : p.role ≠ "user") :
    sendTransaction sid t a f idr now r s = (s, .roleError) := by
  simp [sendTransaction, hp, h]

theorem sendTransaction_funds (sid : Nat) (t : String) (a f idr : Int)
    (now r : Nat) (s : WorkshopState) (p : Participant)
    (hp : getParticipant sid s.participants = some p)
    (hrole : p.role = "user")
    (h : p.balance < a + f) :
    sendTransaction sid t a f idr now r s = (s, .fundsError) := by
  simp [sendTransaction, hp, hrole, h]

theorem sendTransaction_no_recipient (sid : Nat) (t : String) (a f idr : Int)
    (now r : Nat) (s : WorkshopState) (p : Participant)
    (hp : getParticipant sid s.participants = some p)
    (hrole : p.role = "user")
    (hfunds : ¬ p.balance < a + f)
    (h : firstOnlineByNickname t s.participants = none) :
    sendTransaction sid t a f idr now r s = (s, .recipientError) := by
  simp [sendTransaction, hp, hrole, hfunds, h]

theorem sendTransaction_capacity (sid : Nat) (t : String) (a f idr : Int)
    (now r : Nat) (s : WorkshopState) (p q : Participant)
    (hp : getParticipant sid s.participants = some p)
    (hrole : p.role = "user")
    (hfunds : ¬ p.balance < a + f)
    (hrec : firstOnlineByNickname t s.participants = some q)
    (h : 5 ≤ s.mempool.length) :
    sendTransaction sid t a f idr now r s = (s, .capacityError) := by
  simp [sendTransaction, hp, hrole, hfunds, hrec, h]

theorem sendTransaction_accepted (sid : Nat) (t : String) (a f idr : Int)
    (now r : Nat) (s : WorkshopState) (p q : Participant)
    (hp : getParticipant sid s.participants = some p)
    (hrole : p.role = "user")
    (hfunds : ¬ p.balance < a + f)
    (hrec : firstOnlineByNickname t s.participants = some q)
    (hcap : ¬ 5 ≤ s.mempool.length) :
    sendTransaction sid t a f idr now r s =
      (let tx := submittedTx p q a f idr now
       let s1 : WorkshopState :=
         { s with
           mempool := s.mempool ++ [tx]
           stats := { s.stats with totalTransactions := s.stats.totalTransactions + 1 }
           participants := updateById sid (debitUpdate a f) s.participants }
       (if 3 ≤ s1.mempool.length then triggerMining r now s1 else s1, .accepted tx)) := by
  simp only [sendTransaction, hp]
  rw [if_neg (fun hc => hc hrole), if_neg hfunds]
  simp only [hrec]
  rw [if_neg hcap]
  rfl

theorem mineBlock_no_miner (sid now : Nat) (s : WorkshopState)
    (h : getParticipant sid s.participants = none) :
    mineBlock sid now s = (s, .roleError) := by
  simp [mineBlock, h]

theorem mineBlock_not_miner (sid now : Nat) (s : WorkshopState) (p : Participant)
    (hp : getParticipant sid s.participants = some p)
    (h : p.role ≠ "miner") :
    mineBlock sid now s = (s, .roleError) := by
  simp [mineBlock, hp, h]

theorem mineBlock_wrong_turn (sid now : Nat) (s : WorkshopState) (p : Participant)
    (hp : getParticipant sid s.participants = some p)
    (hrole : p.role = "miner")
    (h : s.currentMiner ≠ some p.nickname) :
    mineBlock sid now s = (s, .turnError) := by
  simp [mineBlock, hp, hrole, h]

theorem mineBlock_empty_pool (sid now : Nat) (s : WorkshopState) (p : Participant)
    (hp : getParticipant sid s.participants = some p)
    (hrole : p.role = "miner")
    (hturn : s.currentMiner = some p.nickname)
    (h : s.mempool.length = 0) :
    mineBlock sid now s = (s, .emptyPoolError) := by
  simp [mineBlock, hp, hrole, hturn, h]

theorem mineBlock_success (sid now : Nat) (s : WorkshopState) (p : Participant)
    (hp : getParticipant sid s.participants = some p)
    (hrole : p.role = "miner")
    (hturn : s.currentMiner = some p.nickname)
    (hpool : s.mempool.length ≠ 0) :
    mineBlock sid now s =
      ({ s with
          blockchain := s.blockchain ++ [minedBlockOf s p.nickname now]
          stats := { s.stats with totalBlocks := s.stats.totalBlocks + 1 }
          mempool := s.mempool.drop 5
          participants := updateById sid (rewardUpdate (s.mempool.take 5)) (creditRecipients (s.mempool.take 5) s.participants)
          currentMiner := none },
       .mined (minedBlockOf s p.nickname now)) := by
  simp only [mineBlock, hp]
  rw [if_neg (fun hc => hc hrole), if_neg (fun hc => hc hturn), if_neg hpool]
  rfl

/-! ### Case splits over the handlers -/

theorem sendTransaction_split (sid : Nat) (t : String) (a f idr : Int)
    (now r : Nat) (s : WorkshopState) :
    ((sendTransaction sid t a f idr now r s).1 = s ∧
      ((sendTransaction sid t a f idr now r s).2).isError = true) ∨
    ∃ p q, getParticipant sid s.participants = some p ∧ p.role = "user" ∧
      ¬ p.balance < a + f ∧ firstOnlineByNickname t s.participants = some q ∧
      ¬ 5 ≤ s.mempool.length := by
  rcases hp : getParticipant sid s.participants with _ | p
  · left
    rw [sendTransaction_no_sender sid t a f idr now r s hp]
    exact ⟨rfl, rfl⟩
  · by_cases hrole : p.role = "user"
    · by_cases hfunds : p.balance < a + f
      · left
        rw [sendTransaction_funds sid t a f idr now r s p hp hrole hfunds]
        exact ⟨rfl, rfl⟩
      · rcases hrec : firstOnlineByNickname t s.participants with _ | q
        · left
          rw [sendTransaction_no_recipient sid t a f idr now r s p hp hrole hfunds hrec]
          exact ⟨rfl, rfl⟩
        · by_cases hcap : 5 ≤ s.mempool.length
          · left
            rw [sendTransaction_capacity sid t a f idr now r s p q hp hrole hfunds hrec hcap]
            exact ⟨rfl, rfl⟩
          · right
            exact ⟨p, q, rfl, hrole, hfunds, rfl, hcap⟩
    · left
      rw [sendTransaction_not_user sid t a f idr now r s p hp hrole]
      exact ⟨rfl, rfl⟩

theorem mineBlock_split (sid now : Nat) (s : WorkshopState) :
    (mineBlock sid now s).1 = s ∨
    ∃ p, getParticipant sid s.participants = some p ∧ p.role = "miner" ∧
      s.currentMiner = some p.nickname ∧ s.mempool.length ≠ 0 := by
  rcases hp : getParticipant sid s.participants with _ | p
  · left
    rw [mineBlock_no_miner sid now s hp]
  · by_cases hrole : p.role = "miner"
    · by_cases hturn : s.currentMiner = some p.nickname
      · by_cases hpool : s.mempool.length = 0
        · left
          rw [mineBlock_empty_pool sid now s p hp hrole hturn hpool]
        · right
          exact ⟨p, rfl, hrole, hturn, hpool⟩
      · left
        rw [mineBlock_wrong_turn sid now s p hp hrole hturn]
    · left
      rw [mineBlock_not_miner sid now s p hp hrole]

theorem sendTransaction_blockchain (sid : Nat) (t : String) (a f idr : Int)
    (now r : Nat) (s : WorkshopState) :
    ((sendTransaction sid t a f idr now r s).1).blockchain = s.blockchain := by
  rcases sendTransaction_split sid t a f idr now r s with ⟨h, _⟩ | ⟨p, q, hp, hrole, hfunds, hrec, hcap⟩
  · rw [h]
  · rw [sendTransaction_accepted sid t a f idr now r s p q hp hrole hfunds hrec hcap]
    dsimp only
    split <;> simp [triggerMining_blockchain]

theorem sendTransaction_mempool_cases (sid : Nat) (t : String) (a f idr : Int)
    (now r : Nat) (s : WorkshopState) :
    ((sendTransaction sid t a f idr now r s).1).mempool = s.mempool ∨
    (¬ 5 ≤ s.mempool.length ∧ ∃ p q,
      ((sendTransaction sid t a f idr now r s).1).mempool =
        s.mempool ++ [submittedTx p q a f idr now]) := by
  rcases sendTransaction_split sid t a f idr now r s with ⟨h, _⟩ | ⟨p, q, hp, hrole, hfunds, hrec, hcap⟩
  · left
    rw [h]
  · right
    refine ⟨hcap, p, q, ?_⟩
    rw [sendTransaction_accepted sid t a f idr now r s p q hp hrole hfunds hrec hcap]
    dsimp only
    split <;> simp [triggerMining_mempool]

theorem mineBlock_blockchain_cases (sid now : Nat) (s : WorkshopState) :
    ((mineBlock sid now s).1).blockchain = s.blockchain ∨
    ∃ nick, ((mineBlock sid now s).1).blockchain =
      s.blockchain ++ [minedBlockOf s nick now] := by
  rcases mineBlock_split sid now s with h | ⟨p, hp, hrole, hturn, hpool⟩
  · left
    rw [h]
  · right
    refine ⟨p.nickname, ?_⟩
    rw [mineBlock_success sid now s p hp hrole hturn hpool]

theorem mineBlock_mempool_cases (sid now : Nat) (s : WorkshopState) :
    ((mineBlock sid now s).1).mempool = s.mempool ∨
    ((mineBlock sid now s).1).mempool = s.mempool.drop 5 := by
  rcases mineBlock_split sid now s with h | ⟨p, hp, hrole, hturn, hpool⟩
  · left
    rw [h]
  · right
    rw [mineBlock_success sid now s p hp hrole hturn hpool]

/-! ### Chain append lemmas -/

theorem minedBlockOf_previousHash (s : WorkshopState) (nick : String) (now : Nat)
    (t : Block) (h : s.blockchain.getLast? = some t) :
    (minedBlockOf s nick now).previousHash = t.hash := by
  simp [minedBlockOf, h]

theorem minedBlockOf_hash (s : WorkshopState) (nick : String) (now : Nat) :
    (minedBlockOf s nick now).hash = generateBlockHash (minedBlockOf s nick now) := rfl

theorem minedBlockOf_number (s : WorkshopState) (nick : String) (now : Nat) :
    (minedBlockOf s nick now).number = s.blockchain.length := rfl

theorem chainLinkedB_append (b : Block) :
    ∀ l : List Block, chainLinkedB l = true →
      (∀ t, l.getLast? = some t → b.previousHash = t.hash) →
      chainLinkedB (l ++ [b]) = true
  | [] => by
      intro _ _
      rfl
  | [x] => by
      intro _ hlast
      have := hlast x rfl
      simp [chainLinkedB, this]
  | x :: y :: rest => by
      intro hl hlast
      simp only [chainLinkedB, Bool.and_eq_true] at hl
      obtain ⟨hxy, hrest⟩ := hl
      have ih := chainLinkedB_append b (y :: rest) hrest
        (fun t ht => hlast t (by rw [List.getLast?_cons_cons]; exact ht))
      simp only [List.cons_append, chainLinkedB, Bool.and_eq_true]
      exact ⟨hxy, by simpa [List.cons_append] using ih⟩

theorem hashesOkTail_append (b : Block) (l : List Block) (hl : l ≠ [])
    (h : hashesOkTail l = true) (hb : b.hash = generateBlockHash b) :
    hashesOkTail (l ++ [b]) = true := by
  cases l with
  | nil => exact absurd rfl hl
  | cons x xs =>
      simp only [hashesOkTail, List.cons_append, List.tail_cons, List.all_append] at h ⊢
      simp [h, hb]

theorem head?_append_singleton (l : List Block) (b : Block) (hl : l ≠ []) :
    (l ++ [b]).head? = l.head? := by
  cases l with
  | nil => exact absurd rfl hl
  | cons x xs => rfl

/-! ### Reachability invariants -/

theorem reachable_chain_inv (s : WorkshopState) (h : Reachable s) :
    s.blockchain ≠ [] ∧ chainLinkedB s.blockchain = true ∧
    hashesOkTail s.blockchain = true ∧
    ∃ ts, s.blockchain.head? = some (genesisBlock ts) := by
  induction h with
  | init ts =>
      exact ⟨by simp [initialState], rfl, rfl, ts, rfl⟩
  | step e s2 ih =>
      obtain ⟨hne, hlink, hhash, ts, hhead⟩ := ih
      cases e with
      | join sid n role now =>
          simp only [step]
          rw [joinWorkshop_blockchain]
          exact ⟨hne, hlink, hhash, ts, hhead⟩
      | submit sid t a f idr now r =>
          simp only [step]
          rw [sendTransaction_blockchain]
          exact ⟨hne, hlink, hhash, ts, hhead⟩
      | mine sid now =>
          simp only [step]
          rcases mineBlock_blockchain_cases sid now _ with hc | ⟨nick, hc⟩
          · rw [hc]
            exact ⟨hne, hlink, hhash, ts, hhead⟩
          · rw [hc]
            refine ⟨by simp, ?_, ?_, ts, ?_⟩
            · refine chainLinkedB_append _ _ hlink ?_
              intro tb htb
              exact minedBlockOf_previousHash _ nick now tb htb
            · exact hashesOkTail_append _ _ hne hhash (minedBlockOf_hash _ nick now)
            · rw [head?_append_singleton _ _ hne]
              exact hhead
      | disconnect sid =>
          simp only [step]
          rw [disconnect_blockchain]
          exact ⟨hne, hlink, hhash, ts, hhead⟩
      | trigger r now =>
          simp only [step]
          rw [triggerMining_blockchain]
          exact ⟨hne, hlink, hhash, ts, hhead⟩
      | timeout nick r now =>
          simp only [step]
          rw [miningTimeout_blockchain]
          exact ⟨hne, hlink, hhash, ts, hhead⟩

theorem reachable_pool_le (s : WorkshopState) (h : Reachable s) :
    s.mempool.length ≤ 5 := by
  induction h with
  | init ts => simp [initialState]
  | step e s2 ih =>
      cases e with
      | join sid n role now =>
          simp only [step]
          rw [joinWorkshop_mempool]
          exact ih
      | submit sid t a f idr now r =>
          simp only [step]
          rcases sendTransaction_mempool_cases sid t a f idr now r _ with hc | ⟨hcap, p, q, hc⟩
          · rw [hc]
            exact ih
          · rw [hc]
            simp only [List.length_append, List.length_singleton]
            omega
      | mine sid now =>
          simp only [step]
          rcases mineBlock_mempool_cases sid now _ with hc | hc
          · rw [hc]
            exact ih
          · rw [hc]
            simp only [List.length_drop]
            omega
      | disconnect sid =>
          simp only [step]
          rw [disconnect_mempool]
          exact ih
      | trigger r now =>
          simp only [step]
          rw [triggerMining_mempool]
          exact ih
      | timeout nick r now =>
          simp only [step]
          rw [miningTimeout_mempool]
          exact ih

/-! ### Further helper lemmas -/

theorem getParticipant_updateById_ne (sid sid2 : Nat) (f : Participant → Participant)
    (h : sid2 ≠ sid) :
    ∀ l : List (Nat × Participant),
      getParticipant sid2 (updateById sid f l) = getParticipant sid2 l
  | [] => rfl
  | (k, q) :: rest => by
      by_cases hk : k = sid
      · subst hk
        have hk2 : ¬ (k = sid2) := fun hh => h hh.symm
        simp [updateById, getParticipant, hk2]
      · simp [updateById, getParticipant, hk,
          getParticipant_updateById_ne sid sid2 f h rest]

theorem totalTokens_triggerMining (r now : Nat) (s : WorkshopState) :
    totalTokens (triggerMining r now s) = totalTokens s := by
  unfold totalTokens
  rw [triggerMining_participants, triggerMining_mempool]

theorem firstByNickname_append_of_some (m : String) (q : Participant) :
    ∀ (l l2 : List (Nat × Participant)), firstByNickname m l = some q →
      firstByNickname m (l ++ l2) = some q
  | [], l2 => by
      intro h
      simp [firstByNickname, values] at h
  | (k, x) :: rest, l2 => by
      intro h
      rw [firstByNickname_cons] at h
      by_cases hx : x.nickname == m
      · rw [if_pos hx] at h
        simp only [List.cons_append]
        rw [firstByNickname_cons, if_pos hx]
        exact h
      · rw [if_neg hx] at h
        simp only [List.cons_append]
        rw [firstByNickname_cons, if_neg hx]
        exact firstByNickname_append_of_some m q rest l2 h

theorem chainLinkedB_cons_tail (x : Block) (xs : List Block)
    (h : chainLinkedB (x :: xs) = true) : chainLinkedB xs = true := by
  cases xs with
  | nil => rfl
  | cons y ys =>
      simp only [chainLinkedB, Bool.and_eq_true] at h
      exact h.2

theorem chainLinkedB_decomp :
    ∀ (l1 : List Block) (b1 b2 : Block) (l2 l : List Block),
      l = l1 ++ b1 :: b2 :: l2 → chainLinkedB l = true → b2.previousHash = b1.hash
  | [], b1, b2, l2, l => by
      intro hl h
      subst hl
      simp only [List.nil_append, chainLinkedB, Bool.and_eq_true, beq_iff_eq] at h
      exact h.1
  | x :: rest, b1, b2, l2, l => by
      intro hl h
      subst hl
      simp only [List.cons_append] at h
      exact chainLinkedB_decomp rest b1 b2 l2 _ rfl (chainLinkedB_cons_tail _ _ h)

theorem sumBal_append_singleton (l : List (Nat × Participant)) (k : Nat)
    (p : Participant) : sumBal (l ++ [(k, p)]) = sumBal l + p.balance := by
  simp [sumBal, values, List.map_append, List.sum_append]

theorem sumRew_append_singleton (l : List (Nat × Participant)) (k : Nat)
    (p : Participant) :
    sumRew (l ++ [(k, p)]) = sumRew l + p.miningRewards.getD 0 := by
  simp [sumRew, values, List.map_append, List.sum_append]

theorem poolEscrow_append_singleton (l : List Transaction) (tx : Transaction) :
    poolEscrow (l ++ [tx]) = poolEscrow l + (tx.amount + tx.fee) := by
  simp [poolEscrow, List.map_append, List.sum_append]

/-! ### Claim theorems -/

/-- C2 counterexample: on the two-element sequence ["x", ""] the code pairs
"x" with itself — `currentLevel[i + 1] || left` treats the empty-string
right element as missing — so the root is the digest of "xx", not of the
pair concatenation "x" ++ "" = "x" that the claim's pairing rule
prescribes; the claim, read over all sequences of hashes, is false here. -/
theorem claim2_counterexample :
    buildMerkleTree ["x", ""] = SHA256 ("x" ++ "x") ∧
    buildMerkleTree ["x", ""] ≠ SHA256 ("x" ++ "") ∧
    buildMerkleTree ["x", ""] ≠ merkleRootSpec ["x", ""] := by
  refine ⟨rfl, by decide, by decide⟩

/-- C2 (amended): merkleRoot of the empty sequence is the all-zero
sentinel; a one-element sequence returns its element unchanged; for every
sequence of NON-EMPTY hashes (SHA-256 outputs and the sentinel are never
empty, so every hash actually fed to the function qualifies) the result is
exactly the spec's literal left-to-right pairing with odd-duplication; and
the function is deterministic.  Only when an element is the empty string
does the source duplicate the left element instead of pairing (see the
counterexample). -/
theorem claim2_merkle_root :
    buildMerkleTree [] = zeroHash ∧
    (∀ h : String, buildMerkleTree [h] = h) ∧
    (∀ l : List String, "" ∉ l → buildMerkleTree l = merkleRootSpec l) ∧
    (∀ l1 l2 : List String, l1 = l2 → buildMerkleTree l1 = buildMerkleTree l2) :=
  ⟨rfl, fun _ => rfl, buildMerkleTree_eq_spec, fun _ _ h => by rw [h]⟩

/-- C2 witness: the source Merkle root of a concrete three-hash sequence
coincides with the spec's pairing description. -/
theorem claim2_witness :
    buildMerkleTree ["a", "b", "c"] = merkleRootSpec ["a", "b", "c"] :=
  claim2_merkle_root.2.2.1 ["a", "b", "c"] (by decide)

/-- C7 counterexample: the genesis block of the freshly initialised chain
stores the hard-coded literal `genesis_block_hash_…`, not the digest of its
own (previousHash, merkleRoot, timestamp, number) fields, so the claim
fails at block 0. -/
theorem claim7_counterexample :
    Reachable (initialState 0) ∧
    (initialState 0).blockchain = [genesisBlock 0] ∧
    (genesisBlock 0).hash ≠ generateBlockHash (genesisBlock 0) :=
  ⟨Reachable.init 0, rfl, by decide⟩

/-- C7 (amended): in every reachable state, every block EXCEPT the genesis
head carries `hash = generateBlockHash` of itself (the digest of its
previousHash, merkleRoot, timestamp and number), while the head is always
the genesis block, whose hash field is the fixed literal of
`initializeBlockchain`. -/
theorem claim7_block_hashes (s : WorkshopState) (h : Reachable s) :
    (∀ b ∈ s.blockchain.tail, b.hash = generateBlockHash b) ∧
    ∃ ts, s.blockchain.head? = some (genesisBlock ts) := by
  obtain ⟨hne, hlink, hhash, ts, hhead⟩ := reachable_chain_inv s h
  refine ⟨?_, ts, hhead⟩
  intro b hb
  have h2 := List.all_eq_true.mp hhash b hb
  simpa using h2

/-- C7 witness: in the concrete mined trace, the one non-genesis block's
hash is the digest of its header fields, and the head is the genesis. -/
theorem claim7_witness :
    (∀ b ∈ shadowMined.blockchain.tail, b.hash = generateBlockHash b) ∧
    ∃ ts, shadowMined.blockchain.head? = some (genesisBlock ts) :=
  claim7_block_hashes shadowMined
    (Reachable.step (.mine 4 9) (Reachable.step (.trigger 0 6)
      (Reachable.step (.submit 3 "bob" 10 1 0 5 0) (Reachable.step (.join 4 "max" "miner" 3)
        (Reachable.step (.join 3 "alice" "user" 2) (Reachable.step (.join 2 "bob" "user" 1)
          (Reachable.step (.disconnect 1) (Reachable.step (.join 1 "bob" "user" 0)
            (Reachable.init 0)))))))))

/-- C5: the assignment slot (`currentMiner`) holds at most one nickname in
any state; `mine-block` fails with RoleError when the caller's session has
no participant or its role is not "miner", with TurnError when the caller
is a miner but the current assignment differs from the caller's nickname
(in particular whenever no assignment is active, since `none ≠ some _`),
and with EmptyPoolError when it is the caller's turn but the pool is empty;
each failure returns the state unchanged. -/
theorem claim5_mine_errors :
    (∀ (s : WorkshopState) (n1 n2 : String),
      s.currentMiner = some n1 → s.currentMiner = some n2 → n1 = n2) ∧
    (∀ sid now s, getParticipant sid s.participants = none →
      mineBlock sid now s = (s, .roleError)) ∧
    (∀ sid now s p, getParticipant sid s.participants = some p →
      p.role ≠ "miner" → mineBlock sid now s = (s, .roleError)) ∧
    (∀ sid now s p, getParticipant sid s.participants = some p →
      p.role = "miner" → s.currentMiner ≠ some p.nickname →
      mineBlock sid now s = (s, .turnError)) ∧
    (∀ sid now s p, getParticipant sid s.participants = some p →
      p.role = "miner" → s.currentMiner = some p.nickname →
      s.mempool.length = 0 → mineBlock sid now s = (s, .emptyPoolError)) := by
  refine ⟨?_, mineBlock_no_miner, mineBlock_not_miner, mineBlock_wrong_turn,
    mineBlock_empty_pool⟩
  intro s n1 n2 h1 h2
  rw [h1] at h2
  exact Option.some_inj.mp h2

/-- C5 witness: with no assignment active, miner Max gets TurnError; with
Max assigned over an empty pool, he gets EmptyPoolError; and the
uniqueness of the assignment holds at the assigned state. -/
theorem claim5_witness :
    mineBlock 4 9 shadowBase = (shadowBase, .turnError) ∧
    mineBlock 4 11 emptyPoolAssigned = (emptyPoolAssigned, .emptyPoolError) ∧
    ("max" : String) = "max" :=
  ⟨claim5_mine_errors.2.2.2.1 4 9 shadowBase (newParticipant 4 "max" "miner" 3)
      (by decide) rfl (by decide),
   claim5_mine_errors.2.2.2.2 4 11 emptyPoolAssigned _ rfl rfl (by decide) (by decide),
   claim5_mine_errors.1 emptyPoolAssigned "max" "max" (by decide) (by decide)⟩

/-- C6: in every reachable state the pending pool holds at most 5
transactions; a submission against a full pool never goes through (it is
answered with CapacityError when the sender/funds/recipient validations
pass, and with the corresponding earlier error otherwise) and leaves the
state unchanged; mining only ever removes the first five pool entries; and
no other operation (join, disconnect, trigger, turn timeout) touches the
pool. -/
theorem claim6_pool_bound :
    (∀ s, Reachable s → s.mempool.length ≤ 5) ∧
    (∀ sid t a f idr now r s, 5 ≤ s.mempool.length →
      (sendTransaction sid t a f idr now r s).1 = s ∧
      ((sendTransaction sid t a f idr now r s).2).isError = true) ∧
    (∀ sid t a f idr now r s p q, 5 ≤ s.mempool.length →
      getParticipant sid s.participants = some p → p.role = "user" →
      ¬ p.balance < a + f → firstOnlineByNickname t s.participants = some q →
      sendTransaction sid t a f idr now r s = (s, .capacityError)) ∧
    (∀ sid now s, ((mineBlock sid now s).1).mempool = s.mempool ∨
      ((mineBlock sid now s).1).mempool = s.mempool.drop 5) ∧
    (∀ sid n role now s, ((joinWorkshop sid n role now s).1).mempool = s.mempool) ∧
    (∀ sid s, (disconnect sid s).mempool = s.mempool) ∧
    (∀ r now s, (triggerMining r now s).mempool = s.mempool) ∧
    (∀ nick r now s, (miningTimeout nick r now s).mempool = s.mempool) := by
  refine ⟨reachable_pool_le, ?_, ?_, mineBlock_mempool_cases, joinWorkshop_mempool,
    disconnect_mempool, triggerMining_mempool, miningTimeout_mempool⟩
  · intro sid t a f idr now r s h5
    rcases sendTransaction_split sid t a f idr now r s with ⟨h1, h2⟩ | ⟨p, q, _, _, _, _, hcap⟩
    · exact ⟨h1, h2⟩
    · exact absurd h5 hcap
  · intro sid t a f idr now r s p q h5 hp hrole hfunds hrec
    exact sendTransaction_capacity sid t a f idr now r s p q hp hrole hfunds hrec h5

/-- C6 witness: the initial state satisfies the reachable bound; on the
concrete full pool, Ann's sixth submission is rejected with CapacityError
and the state is unchanged. -/
theorem claim6_witness :
    (initialState 7).mempool.length ≤ 5 ∧
    sendTransaction 1 "ben" 1 0 9 9 0 fullPoolState = (fullPoolState, .capacityError) := by
  refine ⟨claim6_pool_bound.1 (initialState 7) (Reachable.init 7), ?_⟩
  exact claim6_pool_bound.2.2.1 1 "ben" 1 0 9 9 0 fullPoolState
    (debitUpdate 1 0 (debitUpdate 1 0 (debitUpdate 1 0 (debitUpdate 1 0
      (debitUpdate 1 0 (newParticipant 1 "ann" "user" 0))))))
    (newParticipant 2 "ben" "user" 1)
    (by decide) (by decide) rfl (by decide) (by decide)

/-- C4 counterexample: the sender role check (`!sender || sender.role !==
'user'`) never consults the online flag.  After Ann disconnects, a
submission arriving on her session is accepted and mutates the pool, where
the claim requires RoleError for a sender who is not a registered ONLINE
user. -/
theorem claim4_counterexample :
    (getParticipant 1 offlineSenderState.participants).map (fun p => p.online) = some false ∧
    (getParticipant 1 offlineSenderState.participants).map (fun p => p.role) = some "user" ∧
    (sendTransaction 1 "ben" 10 1 0 5 0 offlineSenderState).2 ≠ .roleError ∧
    ((sendTransaction 1 "ben" 10 1 0 5 0 offlineSenderState).1).mempool ≠
      offlineSenderState.mempool :=
  ⟨rfl, rfl, by decide, by decide⟩

/-- C4 (amended): submit fails with RoleError exactly when the calling
session has no registered participant or its participant's role is not
"user" — the sender's online flag is NOT consulted (only the transport
layer keeps disconnected sessions from issuing commands; see the
counterexample); with FundsError when the sender is a registered user and
amount+fee exceeds its balance; with RecipientError when additionally no
online participant carries the recipient nickname; with CapacityError when
additionally the pool already holds 5 entries; and every validation
failure returns the ledger state unchanged. -/
theorem claim4_submit_errors :
    (∀ sid t a f idr now r s,
      ((sendTransaction sid t a f idr now r s).2 = .roleError ↔
        ¬ ∃ p, getParticipant sid s.participants = some p ∧ p.role = "user")) ∧
    (∀ sid t a f idr now r s p, getParticipant sid s.participants = some p →
      p.role = "user" → p.balance < a + f →
      sendTransaction sid t a f idr now r s = (s, .fundsError)) ∧
    (∀ sid t a f idr now r s p, getParticipant sid s.participants = some p →
      p.role = "user" → ¬ p.balance < a + f →
      firstOnlineByNickname t s.participants = none →
      sendTransaction sid t a f idr now r s = (s, .recipientError)) ∧
    (∀ sid t a f idr now r s p q, getParticipant sid s.participants = some p →
      p.role = "user" → ¬ p.balance < a + f →
      firstOnlineByNickname t s.participants = some q → 5 ≤ s.mempool.length →
      sendTransaction sid t a f idr now r s = (s, .capacityError)) ∧
    (∀ sid t a f idr now r s,
      ((sendTransaction sid t a f idr now r s).2).isError = true →
      (sendTransaction sid t a f idr now r s).1 = s) := by
  refine ⟨?_, sendTransaction_funds, sendTransaction_no_recipient,
    sendTransaction_capacity, ?_⟩
  · intro sid t a f idr now r s
    constructor
    · intro h hex
      obtain ⟨p, hp, hrole⟩ := hex
      by_cases hfunds : p.balance < a + f
      · rw [sendTransaction_funds sid t a f idr now r s p hp hrole hfunds] at h
        simp at h
      · rcases hrec : firstOnlineByNickname t s.participants with _ | q
        · rw [sendTransaction_no_recipient sid t a f idr now r s p hp hrole hfunds hrec] at h
          simp at h
        · by_cases hcap : 5 ≤ s.mempool.length
          · rw [sendTransaction_capacity sid t a f idr now r s p q hp hrole hfunds hrec hcap] at h
            simp at h
          · rw [sendTransaction_accepted sid t a f idr now r s p q hp hrole hfunds hrec hcap] at h
            simp at h
    · intro h
      rcases hp : getParticipant sid s.participants with _ | p
      · rw [sendTransaction_no_sender sid t a f idr now r s hp]
      · by_cases hrole : p.role = "user"
        · exact absurd ⟨p, hp, hrole⟩ h
        · rw [sendTransaction_not_user sid t a f idr now r s p hp hrole]
  · intro sid t a f idr now r s hE
    rcases sendTransaction_split sid t a f idr now r s with ⟨h1, _⟩ |
      ⟨p, q, hp, hrole, hfunds, hrec, hcap⟩
    · exact h1
    · rw [sendTransaction_accepted sid t a f idr now r s p q hp hrole hfunds hrec hcap] at hE
      simp [SubmitResult.isError] at hE

/-- C4 witness: a submission exceeding Ann's balance is answered with
FundsError on the concrete state and leaves it unchanged; a submission from
an unregistered session is answered with RoleError. -/
theorem claim4_witness :
    sendTransaction 1 "ann" 200 0 0 5 0 selfSendBase = (selfSendBase, .fundsError) ∧
    (sendTransaction 99 "ann" 1 0 0 5 0 selfSendBase).2 = .roleError :=
  ⟨claim4_submit_errors.2.1 1 "ann" 200 0 0 5 0 selfSendBase _ rfl rfl (by decide),
   (claim4_submit_errors.1 99 "ann" 1 0 0 5 0 selfSendBase).mpr
     (fun hex => by
        obtain ⟨p, hp, _⟩ := hex
        rw [show getParticipant 99 selfSendBase.participants = none from rfl] at hp
        exact Option.noConfusion hp)⟩

/-- C3 counterexample: the code accepts a self-send — Ann (balance 100)
pays 10 with fee 1 to her own nickname; the submission-time recipient is
Ann herself and her balance drops to 89 at submission, so the claim's "the
recipient's balance is unchanged at submission time" fails as stated. -/
theorem claim3_counterexample :
    (∃ tx, (sendTransaction 1 "ann" 10 1 0 5 0 selfSendBase).2 = .accepted tx ∧
      tx.«to» = "ann") ∧
    balanceOfNick "ann" selfSendBase.participants = some 100 ∧
    balanceOfNick "ann"
      ((sendTransaction 1 "ann" 10 1 0 5 0 selfSendBase).1).participants = some 89 :=
  ⟨⟨_, rfl, rfl⟩, by decide, by decide⟩

/-- C3 (amended): every accepted submission debits the sender by amount+fee
exactly once, appends the hash-carrying transaction (hash computed over
from, to, amount, fee, timestamp) to the pool, increments the
total-transaction counter, leaves the chain untouched, and leaves every
OTHER session's participant record untouched — in particular a recipient
distinct from the sender is not credited at submission time (the credit
happens only when a mined block includes the transaction, claim C1).  When
the recipient IS the sender (self-send), the single shared balance is
debited (see the counterexample). -/
theorem claim3_submit_effects (sid : Nat) (t : String) (a f idr : Int)
    (now r : Nat) (s : WorkshopState) (p q : Participant)
    (hp : getParticipant sid s.participants = some p)
    (hrole : p.role = "user") (hfunds : ¬ p.balance < a + f)
    (hrec : firstOnlineByNickname t s.participants = some q)
    (hcap : ¬ 5 ≤ s.mempool.length) :
    (sendTransaction sid t a f idr now r s).2 = .accepted (submittedTx p q a f idr now) ∧
    ((sendTransaction sid t a f idr now r s).1).mempool =
      s.mempool ++ [submittedTx p q a f idr now] ∧
    (submittedTx p q a f idr now).hash =
      generateTransactionHash { submittedTx p q a f idr now with hash := "" } ∧
    (submittedTx p q a f idr now).«from» = p.nickname ∧
    (submittedTx p q a f idr now).«to» = q.nickname ∧
    (submittedTx p q a f idr now).amount = a ∧
    (submittedTx p q a f idr now).fee = f ∧
    (submittedTx p q a f idr now).timestamp = now ∧
    ((sendTransaction sid t a f idr now r s).1).stats.totalTransactions =
      s.stats.totalTransactions + 1 ∧
    getParticipant sid ((sendTransaction sid t a f idr now r s).1).participants =
      some (debitUpdate a f p) ∧
    (debitUpdate a f p).balance = p.balance - (a + f) ∧
    (∀ sid2, sid2 ≠ sid →
      getParticipant sid2 ((sendTransaction sid t a f idr now r s).1).participants =
        getParticipant sid2 s.participants) ∧
    ((sendTransaction sid t a f idr now r s).1).blockchain = s.blockchain := by
  rw [sendTransaction_accepted sid t a f idr now r s p q hp hrole hfunds hrec hcap]
  dsimp only
  refine ⟨rfl, ?_, rfl, rfl, rfl, rfl, rfl, rfl, ?_, ?_, rfl, ?_, ?_⟩
  · split <;> simp [triggerMining_mempool]
  · split <;> simp [triggerMining_stats]
  · split <;> simp [triggerMining_participants, getParticipant_updateById, hp, debitUpdate]
  · intro sid2 hne
    split <;>
      simp [triggerMining_participants, getParticipant_updateById_ne sid sid2 _ hne]
  · split <;> simp [triggerMining_blockchain]

/-- C3 witness: the spec's scenario — Ann (balance 100) sends 10 with fee 1
to Ben: the transaction is accepted, Ann ends at 89, Ben stays at 100, the
pool holds exactly that transaction, and the counter reads 1. -/
theorem claim3_witness :
    (sendTransaction 1 "ben" 10 1 0 5 0 twoUsersState).2 =
      .accepted (submittedTx (newParticipant 1 "ann" "user" 0)
        (newParticipant 2 "ben" "user" 1) 10 1 0 5) ∧
    ((sendTransaction 1 "ben" 10 1 0 5 0 twoUsersState).1).mempool =
      [submittedTx (newParticipant 1 "ann" "user" 0)
        (newParticipant 2 "ben" "user" 1) 10 1 0 5] ∧
    balanceOfNick "ann"
      ((sendTransaction 1 "ben" 10 1 0 5 0 twoUsersState).1).participants = some 89 ∧
    balanceOfNick "ben"
      ((sendTransaction 1 "ben" 10 1 0 5 0 twoUsersState).1).participants = some 100 ∧
    ((sendTransaction 1 "ben" 10 1 0 5 0 twoUsersState).1).stats.totalTransactions = 1 := by
  have h := claim3_submit_effects 1 "ben" 10 1 0 5 0 twoUsersState
    (newParticipant 1 "ann" "user" 0) (newParticipant 2 "ben" "user" 1)
    (by decide) rfl (by decide) (by decide) (by decide)
  exact ⟨h.1, by decide, by decide, by decide, by decide⟩

theorem triggerMining_isSome (r now : Nat) (s : WorkshopState)
    (hf : truthyMiner s.currentMiner = false) (hm : onlineMiners s ≠ []) :
    (triggerMining r now s).currentMiner.isSome = true ∧
    (triggerMining r now s).nextMiningTime = some (now + 30000) := by
  obtain ⟨m, _, _, heq⟩ := triggerMining_assigns r now s hf hm
  rw [heq]
  exact ⟨rfl, rfl⟩

/-- C1: a successful mine (caller registered as a miner, holding the active
assignment, pool non-empty) removes exactly the first min(5, pool size)
transactions in arrival order, appends a block whose number is the previous
chain length, whose previousHash is the previous tail's hash, whose
merkleRoot is the Merkle root of the included transactions' hashes, whose
own hash is the block digest, and whose transactions are exactly the
removed ones; the first holder of each recipient nickname is credited by
the amounts addressed to it; the miner's miningRewards grows by the sum of
included fees and its blocksMined and the global block counter each grow by
1; the assignment is cleared.  Consequently, in every reachable state,
every adjacent pair of chain blocks satisfies
`next.previousHash = previous.hash`. -/
theorem claim1_mine_commit :
    (∀ sid now s p, getParticipant sid s.participants = some p →
      p.role = "miner" → s.currentMiner = some p.nickname → s.mempool ≠ [] →
      ((mineBlock sid now s).2 = .mined (minedBlockOf s p.nickname now) ∧
       ((mineBlock sid now s).1).mempool = s.mempool.drop 5 ∧
       (minedBlockOf s p.nickname now).transactions = s.mempool.take 5 ∧
       (s.mempool.take 5).length = min 5 s.mempool.length ∧
       ((mineBlock sid now s).1).blockchain =
         s.blockchain ++ [minedBlockOf s p.nickname now] ∧
       (minedBlockOf s p.nickname now).number = s.blockchain.length ∧
       (∀ tb, s.blockchain.getLast? = some tb →
         (minedBlockOf s p.nickname now).previousHash = tb.hash) ∧
       (minedBlockOf s p.nickname now).merkleRoot =
         buildMerkleTree ((s.mempool.take 5).map Transaction.hash) ∧
       (minedBlockOf s p.nickname now).hash =
         generateBlockHash (minedBlockOf s p.nickname now) ∧
       (∀ n, balanceOfNick n ((mineBlock sid now s).1).participants =
         (balanceOfNick n s.participants).map (· + sumAmountsTo n (s.mempool.take 5))) ∧
       (∃ m, getParticipant sid ((mineBlock sid now s).1).participants = some m ∧
         m.miningRewards = some (p.miningRewards.getD 0 + totalFees (s.mempool.take 5)) ∧
         m.blocksMined = some (p.blocksMined.getD 0 + 1)) ∧
       ((mineBlock sid now s).1).stats.totalBlocks = s.stats.totalBlocks + 1 ∧
       ((mineBlock sid now s).1).currentMiner = none)) ∧
    (∀ s, Reachable s → ∀ (l1 : List Block) (b1 b2 : Block) (l2 : List Block),
      s.blockchain = l1 ++ b1 :: b2 :: l2 → b2.previousHash = b1.hash) := by
  constructor
  · intro sid now s p hp hrole hturn hne
    have hlen : s.mempool.length ≠ 0 := by
      intro h0
      exact hne (List.length_eq_zero.mp h0)
    rw [mineBlock_success sid now s p hp hrole hturn hlen]
    dsimp only
    refine ⟨rfl, rfl, rfl, List.length_take 5 s.mempool, rfl, rfl, ?_, rfl, rfl, ?_, ?_, rfl, rfl⟩
    · intro tb htb
      exact minedBlockOf_previousHash s p.nickname now tb htb
    · intro n
      rw [balanceOfNick_updateById n sid (rewardUpdate (s.mempool.take 5))
        (fun _ => rfl) (fun _ => rfl)]
      exact balanceOfNick_creditRecipients n (s.mempool.take 5) s.participants
    · have hview := getParticipant_creditRecipients_view sid (s.mempool.take 5) s.participants
      rw [hp] at hview
      rcases hg : getParticipant sid (creditRecipients (s.mempool.take 5) s.participants)
        with _ | m0
      · rw [hg] at hview
        simp at hview
      · rw [hg] at hview
        simp only [Option.map_some', Option.some.injEq, minerView, Prod.mk.injEq] at hview
        obtain ⟨_, _, _, hrew, hblk, _⟩ := hview
        refine ⟨rewardUpdate (s.mempool.take 5) m0, ?_, ?_, ?_⟩
        · rw [getParticipant_updateById, hg]
          rfl
        · simp [rewardUpdate, hrew]
        · simp [rewardUpdate, hblk]
  · intro s hre l1 b1 b2 l2 hdec
    obtain ⟨_, hlink, _, _⟩ := reachable_chain_inv s hre
    exact chainLinkedB_decomp l1 b1 b2 l2 s.blockchain hdec hlink

/-- C1 witness: in the concrete assigned state, Max's mine call commits the
block linked to the genesis hash and empties the one-transaction pool. -/
theorem claim1_witness :
    (mineBlock 4 9 shadowAssigned).2 = .mined (minedBlockOf shadowAssigned "max" 9) ∧
    ((mineBlock 4 9 shadowAssigned).1).mempool = [] ∧
    (minedBlockOf shadowAssigned "max" 9).previousHash = (genesisBlock 0).hash := by
  have hA := claim1_mine_commit.1 4 9 shadowAssigned (newParticipant 4 "max" "miner" 3)
    (by decide) rfl (by decide) (by decide)
  have hB := claim1_mine_commit.2 shadowMined
    (Reachable.step (.mine 4 9) (Reachable.step (.trigger 0 6)
      (Reachable.step (.submit 3 "bob" 10 1 0 5 0) (Reachable.step (.join 4 "max" "miner" 3)
        (Reachable.step (.join 3 "alice" "user" 2) (Reachable.step (.join 2 "bob" "user" 1)
          (Reachable.step (.disconnect 1) (Reachable.step (.join 1 "bob" "user" 0)
            (Reachable.init 0)))))))))
    [] (genesisBlock 0) (minedBlockOf shadowAssigned "max" 9) [] (by decide)
  exact ⟨hA.1, by decide, hB⟩

/-- C8 counterexample: the idle-check of `triggerMining` is JavaScript
truthiness (`if (workshopState.currentMiner) return;`), and the empty
string is falsy.  A miner may join under the empty nickname (the join
handler only checks online-uniqueness) and be selected, making the active
assignment `some ""`; a later trigger firing then does NOT no-op: it
reassigns and moves the deadline, refuting "if an assignment is already
active it is a no-op". -/
theorem claim8_counterexample :
    emptyNickAssigned.currentMiner = some "" ∧
    emptyNickAssigned.currentMiner.isSome = true ∧
    emptyNickAssigned.nextMiningTime = some 30005 ∧
    triggerMining 0 6 emptyNickAssigned ≠ emptyNickAssigned ∧
    (triggerMining 0 6 emptyNickAssigned).nextMiningTime = some 30006 := by
  decide

/-- C8 (amended): the mining trigger is a no-op while an assignment to a
NON-EMPTY nickname is active (the source's guard is JavaScript truthiness
of `currentMiner`, so an assignment to the empty-string nickname counts as
no assignment and is overwritten — see the counterexample); with no active
(truthy) assignment and no online miner it leaves the state unchanged
(stays Idle); otherwise it selects the online miner at the random index
(every online miner is selectable), records its nickname as the assignment
and sets the deadline 30000 ms (30 time-units) ahead; the turn timeout with
a non-empty pool re-enters exactly this trigger; and a submission that
brings the pool to ≥ 3 with no active assignment and an online miner
leaves an assignment in place with the 30-unit deadline. -/
theorem claim8_trigger :
    (∀ r now s, truthyMiner s.currentMiner = true → triggerMining r now s = s) ∧
    (∀ r now s, truthyMiner s.currentMiner = false → onlineMiners s = [] →
      triggerMining r now s = s) ∧
    (∀ r now s, truthyMiner s.currentMiner = false → onlineMiners s ≠ [] →
      ∃ m, (onlineMiners s)[r % (onlineMiners s).length]? = some m ∧
        m ∈ onlineMiners s ∧
        triggerMining r now s =
          { s with currentMiner := some m.nickname, nextMiningTime := some (now + 30000) }) ∧
    (∀ now s i, truthyMiner s.currentMiner = false → ∀ h : i < (onlineMiners s).length,
      (triggerMining i now s).currentMiner =
        some ((onlineMiners s).get ⟨i, h⟩).nickname) ∧
    (∀ nick r now s, s.currentMiner = some nick → s.mempool.length ≠ 0 →
      miningTimeout nick r now s = triggerMining r now { s with currentMiner := none }) ∧
    (∀ sid t a f idr now r s tx,
      (sendTransaction sid t a f idr now r s).2 = .accepted tx →
      2 ≤ s.mempool.length → truthyMiner s.currentMiner = false → onlineMiners s ≠ [] →
      ((sendTransaction sid t a f idr now r s).1).currentMiner.isSome = true ∧
      ((sendTransaction sid t a f idr now r s).1).nextMiningTime = some (now + 30000)) := by
  refine ⟨triggerMining_active, triggerMining_noMiner, triggerMining_assigns, ?_, ?_, ?_⟩
  · intro now s i hf h
    have hne : onlineMiners s ≠ [] := by
      intro hemp
      rw [hemp] at h
      exact absurd h (by simp)
    obtain ⟨m, hm, _, heq⟩ := triggerMining_assigns i now s hf hne
    rw [heq]
    rw [Nat.mod_eq_of_lt h, List.getElem?_eq_getElem h] at hm
    have hm2 := Option.some_inj.mp hm
    rw [List.get_eq_getElem]
    rw [← hm2]
  · intro nick r now s hcm hne
    unfold miningTimeout
    rw [if_pos hcm]
    dsimp only
    rw [if_pos hne]
  · intro sid t a f idr now r s tx hacc h2 hf hminers
    rcases sendTransaction_split sid t a f idr now r s with ⟨_, herr⟩ |
      ⟨p, q, hp, hrole, hfunds, hrec, hcap⟩
    · rw [hacc] at herr
      simp [SubmitResult.isError] at herr
    · rw [sendTransaction_accepted sid t a f idr now r s p q hp hrole hfunds hrec hcap]
      dsimp only
      have hcond : 3 ≤ (s.mempool ++ [submittedTx p q a f idr now]).length := by
        simp only [List.length_append, List.length_singleton]
        omega
      rw [if_pos hcond]
      have hlen1 : ((values (updateById sid (debitUpdate a f) s.participants)).filter
          (fun p => p.role == "miner" && p.online)).length = (onlineMiners s).length :=
        length_filter_values_updateById (fun p => p.role == "miner" && p.online)
          sid (debitUpdate a f) (fun _ => rfl) s.participants
      refine triggerMining_isSome r now _ hf ?_
      intro hemp
      apply hminers
      apply List.length_eq_zero.mp
      rw [← hlen1]
      exact congrArg List.length hemp

/-- C8 witness: on the concrete state with one pending transaction, no
assignment, and one online miner (Max), the trigger assigns Max with the
deadline 30000 ms ahead; on the state where Max (a non-empty nickname)
already holds the assignment it is a no-op. -/
theorem claim8_witness :
    (∃ m, (onlineMiners rejoinReplaced)[0 % (onlineMiners rejoinReplaced).length]? = some m ∧
      m ∈ onlineMiners rejoinReplaced ∧
      triggerMining 0 7 rejoinReplaced =
        { rejoinReplaced with currentMiner := some m.nickname,
                              nextMiningTime := some (7 + 30000) }) ∧
    triggerMining 1 8 shadowAssigned = shadowAssigned :=
  ⟨claim8_trigger.2.2.1 0 7 rejoinReplaced (by decide) (by decide),
   claim8_trigger.1 1 8 shadowAssigned (by decide)⟩

/-- C9 counterexample: Bob (socket 1) joins and goes offline; a second Bob
(socket 2) joins and is online; Alice pays "bob" — the submission-time
online recipient is socket 2 — yet, at mining, the credit search
(`find(p => p.nickname === tx.to)`, no online filter) hits the EARLIER
offline Bob first: socket 1 ends at 110 while the submission-time recipient
(socket 2) stays at 100. -/
theorem claim9_counterexample :
    ((values shadowSubmitted.participants).find?
        (fun p => p.nickname == "bob" && p.online)).map (fun p => p.id) = some 2 ∧
    shadowSubmitted.mempool.map (fun tx => tx.«to») = ["bob"] ∧
    (getParticipant 1 shadowMined.participants).map (fun p => p.balance) = some 110 ∧
    (getParticipant 2 shadowMined.participants).map (fun p => p.balance) = some 100 := by
  decide

/-- C9 (amended): a transaction stores only the nickname resolved at
submission time, and mining credits the FIRST registered participant (in
insertion order, online or not) carrying that nickname; since a join only
ever appends a fresh session's record to the registry, a participant
joining later under a reused nickname can never become the first holder, so
reuse AFTER submission never retargets the credit.  However, when an
earlier-registered (offline) participant already shared the nickname at
submission time, that earlier participant — not the submission-time online
recipient — receives the credit (see the counterexample). -/
theorem claim9_recipient_resolution :
    (∀ sid now s p, getParticipant sid s.participants = some p →
      p.role = "miner" → s.currentMiner = some p.nickname → s.mempool ≠ [] →
      ∀ n, balanceOfNick n ((mineBlock sid now s).1).participants =
        (balanceOfNick n s.participants).map (· + sumAmountsTo n (s.mempool.take 5))) ∧
    (∀ sid n role now s m q, sid ∉ s.participants.map Prod.fst →
      firstByNickname m s.participants = some q →
      firstByNickname m ((joinWorkshop sid n role now s).1).participants = some q) := by
  constructor
  · intro sid now s p hp hrole hturn hne n
    have hlen : s.mempool.length ≠ 0 := by
      intro h0
      exact hne (List.length_eq_zero.mp h0)
    rw [mineBlock_success sid now s p hp hrole hturn hlen]
    dsimp only
    rw [balanceOfNick_updateById n sid (rewardUpdate (s.mempool.take 5))
      (fun _ => rfl) (fun _ => rfl)]
    exact balanceOfNick_creditRecipients n (s.mempool.take 5) s.participants
  · intro sid n role now s m q hfresh hfirst
    unfold joinWorkshop
    cases hT : firstOnlineByNickname n s.participants with
    | some _ => exact hfirst
    | none =>
        dsimp only
        rw [updateStats_participants, setParticipant_fresh sid _ s.participants hfresh]
        exact firstByNickname_append_of_some m q s.participants _ hfirst

/-- C9 witness: mining the concrete assigned state credits the first "bob"
holder by 10; a later fresh join (Dave) leaves the first "bob" holder of
the submitted state untouched. -/
theorem claim9_witness :
    balanceOfNick "bob" ((mineBlock 4 9 shadowAssigned).1).participants = some 110 ∧
    firstByNickname "bob"
      ((joinWorkshop 5 "dave" "user" 7 shadowSubmitted).1).participants =
      some { newParticipant 1 "bob" "user" 0 with online := false } := by
  constructor
  · have h1 := claim9_recipient_resolution.1 4 9 shadowAssigned
      (newParticipant 4 "max" "miner" 3) (by decide) rfl (by decide) (by decide) "bob"
    rw [h1]
    decide
  · exact claim9_recipient_resolution.2 5 "dave" "user" 7 shadowSubmitted "bob"
      { newParticipant 1 "bob" "user" 0 with online := false } (by decide) (by decide)

/-- C10 counterexample: Bob's socket re-joins as "charlie" after Alice's
payment to "bob" is already pending; the re-join replaces Bob's registry
entry (`participants.set` on the same session id), so the subsequent
successful mine finds no "bob" to credit and the escrowed amount vanishes:
the total drops from 200 to 190 across a successful mine, where the claim
says every successful mine preserves it. -/
theorem claim10_counterexample :
    (∃ b, (mineBlock 3 9 rejoinAssigned).2 = .mined b) ∧
    totalTokens rejoinAssigned = 200 ∧
    totalTokens rejoinMined = 190 :=
  ⟨⟨_, rfl⟩, by decide, by decide⟩

/-- C10 (amended): the quantity (sum of balances) + (sum of mining rewards)
+ (sum over pending transactions of amount+fee) is preserved by every
submission (accepted or not), by every disconnect, trigger and turn
timeout, and by every mine whose included transactions' recipient
nicknames are still registered — which is always the case unless a session
re-joined, replacing its old participant record, after submitting to it
(see the counterexample); a join on a fresh session with a free nickname
adds exactly 100 for a user and 0 otherwise. -/
theorem claim10_conservation :
    (∀ sid t a f idr now r s,
      totalTokens ((sendTransaction sid t a f idr now r s).1) = totalTokens s) ∧
    (∀ sid now s,
      (∀ tx ∈ s.mempool.take 5, (firstByNickname tx.«to» s.participants).isSome = true) →
      totalTokens ((mineBlock sid now s).1) = totalTokens s) ∧
    (∀ sid s, totalTokens (disconnect sid s) = totalTokens s) ∧
    (∀ r now s, totalTokens (triggerMining r now s) = totalTokens s) ∧
    (∀ nick r now s, totalTokens (miningTimeout nick r now s) = totalTokens s) ∧
    (∀ sid n role now s, sid ∉ s.participants.map Prod.fst →
      firstOnlineByNickname n s.participants = none →
      totalTokens ((joinWorkshop sid n role now s).1) =
        totalTokens s + (if role == "user" then 100 else 0)) := by
  refine ⟨?_, ?_, ?_, totalTokens_triggerMining, ?_, ?_⟩
  · intro sid t a f idr now r s
    rcases sendTransaction_split sid t a f idr now r s with ⟨h1, _⟩ |
      ⟨p, q, hp, hrole, hfunds, hrec, hcap⟩
    · rw [h1]
    · rw [sendTransaction_accepted sid t a f idr now r s p q hp hrole hfunds hrec hcap]
      dsimp only
      have hmid : ∀ st : Stats,
          totalTokens { s with
            mempool := s.mempool ++ [submittedTx p q a f idr now]
            stats := st
            participants := updateById sid (debitUpdate a f) s.participants } =
          totalTokens s := by
        intro st
        unfold totalTokens
        dsimp only
        rw [sumBal_updateById sid (debitUpdate a f) s.participants p hp,
          sumRew_updateById sid (debitUpdate a f) s.participants p hp,
          poolEscrow_append_singleton]
        dsimp [debitUpdate]
        rw [show (submittedTx p q a f idr now).amount = a from rfl,
          show (submittedTx p q a f idr now).fee = f from rfl]
        ring
      split
      · rw [totalTokens_triggerMining]
        exact hmid _
      · exact hmid _
  · intro sid now s hrec
    rcases mineBlock_split sid now s with h | ⟨p, hp, hrole, hturn, hpool⟩
    · rw [h]
    · rw [mineBlock_success sid now s p hp hrole hturn hpool]
      have hview := getParticipant_creditRecipients_view sid (s.mempool.take 5) s.participants
      rw [hp] at hview
      rcases hg : getParticipant sid (creditRecipients (s.mempool.take 5) s.participants)
        with _ | m0
      · rw [hg] at hview
        simp at hview
      · unfold totalTokens
        dsimp only
        rw [sumBal_updateById sid (rewardUpdate (s.mempool.take 5)) _ m0 hg,
          sumRew_updateById sid (rewardUpdate (s.mempool.take 5)) _ m0 hg,
          sumBal_creditRecipients (s.mempool.take 5) s.participants hrec,
          sumRew_creditRecipients]
        simp only [rewardUpdate, Option.getD_some]
        rw [totalFees_eq, poolEscrow_take_drop 5 s.mempool, poolEscrow_eq (s.mempool.take 5)]
        ring
  · intro sid s
    unfold disconnect
    cases hp : getParticipant sid s.participants with
    | none => rfl
    | some p =>
        dsimp only
        unfold totalTokens
        rw [updateStats_participants, updateStats_mempool]
        dsimp only
        rw [sumBal_updateById sid _ s.participants p hp,
          sumRew_updateById sid _ s.participants p hp]
        dsimp only
        ring
  · intro nick r now s
    unfold miningTimeout
    by_cases h : s.currentMiner = some nick
    · rw [if_pos h]
      dsimp only
      by_cases h2 : s.mempool.length ≠ 0
      · rw [if_pos h2, totalTokens_triggerMining]
        rfl
      · rw [if_neg h2]
        rfl
    · rw [if_neg h]
  · intro sid n role now s hfresh hfree
    rw [joinWorkshop_fresh sid n role now s hfree]
    dsimp only
    unfold totalTokens
    rw [updateStats_participants, updateStats_mempool]
    dsimp only
    rw [setParticipant_fresh sid _ s.participants hfresh,
      sumBal_append_singleton, sumRew_append_singleton]
    by_cases hrole : role = "user"
    · subst hrole
      simp [newParticipant]
      ring
    · have h1 : (role == "user") = false := beq_eq_false_iff_ne.mpr hrole
      simp only [newParticipant, h1, Bool.false_eq_true, if_false]
      cases hm : role == "miner" <;> simp

/-- C10 witness: the conserved total is unchanged by Alice's concrete
submission and by Max's concrete mine, and grows by exactly 100 when a
fresh user joins. -/
theorem claim10_witness :
    totalTokens ((sendTransaction 1 "bob" 10 1 0 5 0 rejoinBase).1) =
      totalTokens rejoinBase ∧
    totalTokens ((mineBlock 4 9 shadowAssigned).1) = totalTokens shadowAssigned ∧
    totalTokens ((joinWorkshop 6 "zoe" "user" 9 rejoinBase).1) =
      totalTokens rejoinBase + 100 := by
  refine ⟨claim10_conservation.1 1 "bob" 10 1 0 5 0 rejoinBase,
    claim10_conservation.2.1 4 9 shadowAssigned (by decide), ?_⟩
  have h := claim10_conservation.2.2.2.2.2 6 "zoe" "user" 9 rejoinBase
    (by decide) (by decide)
  simpa using h

end BlockchainSim
